import Mathlib

/-
Shallow embedding of the gogo concurrency library
(package gogo: Proc futures, fixed Pool, StreamPool).

Modelling conventions, translated from the Go source:

* Go errors are modelled by `Option GoError`: `none` is a nil error,
  `some e` a non-nil error.  `GoError.canceled` is the cancellation
  error returned by `ctx.Err()` on a cancelled context; user task
  errors carry a numeric code.
* An `Optional[T]` of the source (a value / error pair) is `Outcome T`.
* Generic Go zero values (`var res T`) are represented by an explicit
  `zero : T` field in each configuration record.
* Concurrency is modelled by interleaving semantics: each goroutine is
  split into the atomic actions that are separated by observable
  synchronisation points in the source, and an execution is a list of
  scheduler events folded over a state.  Theorems quantify over all
  event lists, i.e. over all interleavings (a superset of the
  interleavings admitted by the bounded admission gate, which only
  removes schedules).
-/

namespace Gogo

/-- Go error values: the distinguished context-cancellation error
(`context.Canceled`, returned by `ctx.Err()`), or a user error
identified by a numeric code. -/
inductive GoError where
  | canceled : GoError
  | userErr (code : Nat) : GoError
deriving DecidableEq

/-- The `Optional[T]` value/error pair of the source (`Result`, `Error`). -/
structure Outcome (T : Type) where
  val : T
  err : Option GoError
deriving DecidableEq

/-! ## Proc (future)

Source: `Proc[T]` with `fn`, cached `result`, a `sync.Once` guard, and
`Go()` / `Result()` blocking accessors.  `Result()` simply calls `Go()`,
and `Wait()` also calls `Go()`.  `sync.Once` serialises the competing
calls and publishes the stored result to all of them, so an execution
with any number of (possibly concurrent) `Go()`/`Result()` calls is
modelled as a sequence of atomic calls against the shared state. -/

/-- Configuration of one future: the wrapped task's return pair, whether
the context was already cancelled when the once-body performed its
pre-execution check, and the zero value of `T`. -/
structure ProcCfg (T : Type) where
  taskVal : T
  taskErr : Option GoError
  ctxCancelledAtCheck : Bool
  zero : T

/-- Mutable state of one future: the cached outcome (`p.result`,
`none` until first resolution) and how many times the wrapped task
function has been invoked. -/
structure ProcState (T : Type) where
  result : Option (Outcome T)
  invocations : Nat
deriving DecidableEq

def procInit {T : Type} : ProcState T := ⟨none, 0⟩

/-- The outcome a future resolves to: the cancellation error if the
context was already cancelled at the pre-execution check (the task body
is then skipped and `res` keeps its zero value), otherwise the task's
value/error pair.  Mirrors the `select`/`default` block in `Proc.Go`. -/
def procResolved {T : Type} (cfg : ProcCfg T) : Outcome T :=
  if cfg.ctxCancelledAtCheck then ⟨cfg.zero, some .canceled⟩
  else ⟨cfg.taskVal, cfg.taskErr⟩

/-- One call of `Proc.Go()` (or `Proc.Result()`, which delegates to it):
if a result is already cached it is returned unchanged; otherwise the
once-body runs, performing the context check and, when not cancelled,
invoking the task exactly once, then caches the outcome. -/
def procGoStep {T : Type} (cfg : ProcCfg T) (s : ProcState T) :
    ProcState T × Outcome T :=
  match s.result with
  | some o => (s, o)
  | none =>
      let o := procResolved cfg
      (⟨some o, s.invocations + (if cfg.ctxCancelledAtCheck then 0 else 1)⟩, o)

/-- The state and the list of returned outcomes after `n` successive
calls of `Go()`/`Result()` on one future. -/
def procCalls {T : Type} (cfg : ProcCfg T) : Nat → ProcState T × List (Outcome T)
  | 0 => (procInit, [])
  | n + 1 =>
      let p := procCalls cfg n
      let q := procGoStep cfg p.1
      (q.1, p.2 ++ [q.2])

/-! ## Fixed pool consumption modes

Source: `Pool.consumeMode` is an atomic int, 0 = none, 1 = `Go`,
2 = `Collect`.  `Pool.Go` loads the mode, aborts (`panic`) when it is 2,
then stores 1.  `Pool.Collect` compare-and-swaps 0 to 2 and aborts when
the swap fails.  `Pool.Wait` calls `Pool.Go`, so it is the same call in
this model. -/

/-- A consumption-entry-point call on a fixed pool.  `Wait()` performs
`Go()`, so it is represented by `goCall` as well. -/
inductive PoolCall where
  | goCall : PoolCall
  | collectCall : PoolCall
deriving DecidableEq

/-- One consumption-mode transition; `none` is the abort (`panic`)
outcome of a contract violation. -/
def modeStep : Nat → PoolCall → Option Nat
  | m, .goCall => if m = 2 then none else some 1
  | m, .collectCall => if m = 0 then some 2 else none

/-- Run a sequence of `Go()`/`Collect()` calls against a consumption
mode; an abort is absorbing (the call path halts). -/
def runCalls : Nat → List PoolCall → Option Nat
  | m, [] => some m
  | m, c :: cs =>
      match modeStep m c with
      | none => none
      | some m2 => runCalls m2 cs

/-! ## Fixed pool workers

Source: `Pool.start` launches `size` worker goroutines; each worker

1. checks the shared context with a non-blocking `select` (`<-g.ctx.Done()`
   versus `default`); if the context is already cancelled it takes the
   cancellation error and skips the task body, otherwise
2. invokes `g.makeFn(g.ctx, taskIndex)` and takes its value/error pair,
3. calls `g.cancel()` when the error is non-nil and `failFast` is set,
4. sends the index-tagged outcome on `g.feed`.

These four program points are separated by observable synchronisation
(other goroutines run in between), so a worker is modelled as four
atomic micro-steps, tracked by a phase.  The `invoked` flag on the
decided phases records whether step 2 ran, i.e. whether the task body
was ever invoked for this worker. -/

/-- Phase of one worker goroutine. -/
inductive WPhase (T : Type) where
  | idle : WPhase T
  | running : WPhase T
  | toCancel (o : Outcome T) (invoked : Bool) : WPhase T
  | toPublish (o : Outcome T) (invoked : Bool) : WPhase T
  | done (o : Outcome T) (invoked : Bool) : WPhase T
deriving DecidableEq

def isDonePh {T : Type} : WPhase T → Bool
  | .done _ _ => true
  | _ => false

/-- Static data of a fixed pool (`NewPool`): concurrency limit, task
count, the per-index task results (`makeFn`), the fail-fast option and
the zero value of `T`.  The admission gate of capacity `concurrency`
only restricts which interleavings can occur, so theorems quantifying
over all event lists cover every gated execution. -/
structure PoolCfg (T : Type) where
  concurrency : Nat
  size : Nat
  tasks : Nat → T × Option GoError
  failFast : Bool
  zero : T

/-- The value/error pair task `i` returns when invoked. -/
def taskOut {T : Type} (cfg : PoolCfg T) (i : Nat) : Outcome T :=
  ⟨(cfg.tasks i).1, (cfg.tasks i).2⟩

/-- The outcome a worker reports when it observes the cancelled context
at its pre-execution check: the zero value paired with `ctx.Err()`. -/
def cancelOut {T : Type} (cfg : PoolCfg T) : Outcome T :=
  ⟨cfg.zero, some .canceled⟩

/-- Shared state of a fixed pool run: the cancellation token, the
per-worker phases, and the contents of the internal indexed channel
`g.feed` in send order. -/
structure PState (T : Type) where
  cancelled : Bool
  phases : List (WPhase T)
  feed : List (Nat × Outcome T)
deriving DecidableEq

/-- Scheduler events: run the next micro-step of worker `i`, or cancel
the pool from outside (`Pool.Cancel()` or parent-context cancellation). -/
inductive PEv where
  | work (i : Nat) : PEv
  | cancelEv : PEv
deriving DecidableEq

def pInit {T : Type} (cfg : PoolCfg T) : PState T :=
  ⟨false, List.replicate cfg.size .idle, []⟩

/-- The next micro-step of worker `i` (see the list above): the
pre-execution check, the task invocation, the conditional fail-fast
cancellation, or the send on `g.feed`. -/
def workStep {T : Type} (cfg : PoolCfg T) (s : PState T) (i : Nat) : PState T :=
  match s.phases.get? i with
  | none => s
  | some .idle =>
      if s.cancelled then
        { s with phases := s.phases.set i (.toCancel (cancelOut cfg) false) }
      else
        { s with phases := s.phases.set i .running }
  | some .running =>
      { s with phases := s.phases.set i (.toCancel (taskOut cfg i) true) }
  | some (.toCancel o inv) =>
      { s with cancelled := s.cancelled || (cfg.failFast && o.err.isSome),
               phases := s.phases.set i (.toPublish o inv) }
  | some (.toPublish o inv) =>
      { s with feed := s.feed ++ [(i, o)],
               phases := s.phases.set i (.done o inv) }
  | some (.done _ _) => s

/-- One interleaving step of a fixed pool. -/
def pstep {T : Type} (cfg : PoolCfg T) (s : PState T) : PEv → PState T
  | .cancelEv => { s with cancelled := true }
  | .work i => workStep cfg s i

/-- A pool execution: fold the scheduled events over the initial state. -/
def prun {T : Type} (cfg : PoolCfg T) (evs : List PEv) : PState T :=
  evs.foldl (pstep cfg) (pInit cfg)

/-- All workers have published their outcome (the launcher goroutine has
passed `wg.Wait()` and closed `g.feed`). -/
def allDone {T : Type} (s : PState T) : Bool :=
  s.phases.all isDonePh

/-- The outcome worker `i` finished with. -/
def outcomeAt {T : Type} (cfg : PoolCfg T) (s : PState T) (i : Nat) : Outcome T :=
  match s.phases.get? i with
  | some (.done o _) => o
  | _ => ⟨cfg.zero, none⟩

/-- The stream `Pool.Go` exposes: the forwarding goroutine copies each
indexed feed entry, stripped of its index, into the public channel in
feed order, and closes it when the feed closes. -/
def goOut {T : Type} (s : PState T) : List (Outcome T) :=
  s.feed.map (·.2)

/-- `Pool.Collect` after the feed has closed: place every indexed
outcome into a `size`-slot buffer at its original index (the buffer
starts as zero-valued `Optional`s, as `make([]Optional[T], size)` does),
then split the buffer into the success values and the errors, both in
buffer (= submission index) order. -/
def collectFromFeed {T : Type} (zero : T) (size : Nat)
    (feed : List (Nat × Outcome T)) : List T × List GoError :=
  let base : List (Outcome T) := List.replicate size ⟨zero, none⟩
  let ordered := feed.foldl (fun acc ir => acc.set ir.1 ir.2) base
  (ordered.filterMap (fun o => if o.err.isSome then none else some o.val),
   ordered.filterMap (fun o => o.err))

/-- The decided-outcome phases of worker `i`: the outcome `o` and the
invocation flag are fixed from the moment the worker leaves `running`
(or skips it) and never change again. -/
def Decided {T : Type} (s : PState T) (i : Nat) (o : Outcome T)
    (inv : Bool) : Prop :=
  s.phases.get? i = some (.toCancel o inv) ∨
  s.phases.get? i = some (.toPublish o inv) ∨
  s.phases.get? i = some (.done o inv)

/-! ### Fixed pool: the main invariant -/

/-- Outcome consistency of a phase: every decided outcome is either the
task's own value/error pair (task invoked) or the pool-generated
cancellation outcome (task skipped). -/
def phaseOutOK {T : Type} (cfg : PoolCfg T) (i : Nat) : WPhase T → Prop
  | .toCancel o inv => (inv = true ∧ o = taskOut cfg i) ∨
      (inv = false ∧ o = cancelOut cfg)
  | .toPublish o inv => (inv = true ∧ o = taskOut cfg i) ∨
      (inv = false ∧ o = cancelOut cfg)
  | .done o inv => (inv = true ∧ o = taskOut cfg i) ∨
      (inv = false ∧ o = cancelOut cfg)
  | _ => True

/-- How many feed entries carry task index `i`. -/
def idxCount {T : Type} (i : Nat) (feed : List (Nat × Outcome T)) : Nat :=
  (feed.map Prod.fst).count i

/-- Whether worker `i` is in its final (`done`) phase. -/
def doneAt {T : Type} (s : PState T) (i : Nat) : Bool :=
  match s.phases.get? i with
  | some (.done _ _) => true
  | _ => false

/-- The execution invariant of a fixed pool:

1. there are `size` workers;
2. every feed entry is the final outcome of the worker it is tagged
   with (the worker that sent it is already in `done`);
3. every worker has sent exactly one feed entry once it is `done`, and
   none before — outcomes are neither duplicated nor dropped;
4. every decided outcome is the worker's own task result or the
   cancellation outcome;
5. with `failFast`, an errored outcome can only be present in the feed
   if the pool is already cancelled — the worker cancels before it
   publishes;
6. with `failFast`, a worker about to publish an errored outcome has
   already performed its cancellation step. -/
def PInv {T : Type} (cfg : PoolCfg T) (s : PState T) : Prop :=
  s.phases.length = cfg.size ∧
  (∀ i o, (i, o) ∈ s.feed → ∃ inv, s.phases.get? i = some (.done o inv)) ∧
  (∀ i, idxCount i s.feed = if doneAt s i then 1 else 0) ∧
  (∀ i ph, s.phases.get? i = some ph → phaseOutOK cfg i ph) ∧
  (cfg.failFast = true → ∀ i o, (i, o) ∈ s.feed →
    o.err.isSome = true → s.cancelled = true) ∧
  (cfg.failFast = true → ∀ i o inv,
    s.phases.get? i = some (.toPublish o inv) →
    o.err.isSome = true → s.cancelled = true)

/-! ## Streaming pool

Source: `StreamPool[T]` with an unbuffered `tasks` channel, a buffered
`results` channel, a `done` channel closed by `Close()` (guarded by
`closeOnce`), a dispatcher goroutine, and `Submit` performing
`select { case tasks <- fn: ...; case <-done: return ErrPoolClosed }`.

Channel/select behaviour is modelled after Go's semantics:

* a receive from a closed channel is always ready, so a `select` that
  includes `<-done` after `Close` never parks — it immediately resolves
  one of its ready cases;
* a rendezvous on the unbuffered `tasks` channel completes only between
  one party that is parked on the channel (enqueued, having found no
  ready case) and one party that polls it, and `close(done)` claims
  every `select` still parked on `done` — including parked submitters —
  before `Close()` returns, resolving them through the `done` case;
* the drain loop's `select` with `default` takes `default` exactly when
  no sender is parked on `tasks`; consequently a `Submit` that begins
  after `Close()` has returned can never complete its send: it never
  parks (its `<-done` case is ready) and no receiver is parked on
  `tasks` any more, so the only resolution left to it is `ErrPoolClosed`;
* the `tasks` channel is never closed, so a `Submit` send can never hit
  a closed channel.

The dispatcher is in one of: polling its main `select` (`mainPoll`),
parked on it (`mainParked`), in the post-close drain loop (`draining`),
in `wg.Wait()` (`waiting`), or returned after `close(results)`
(`finished`). -/

inductive DPhase where
  | mainPoll : DPhase
  | mainParked : DPhase
  | draining : DPhase
  | waiting : DPhase
  | finished : DPhase
deriving DecidableEq

/-- Static data of a streaming pool (`NewStreamPool`): concurrency
limit (admission gate, again only restricting interleavings), the
value/error pair each submitted task id returns, the fail-fast option
and the zero value. -/
structure SPCfg (T : Type) where
  concurrency : Nat
  tasks : Nat → T × Option GoError
  failFast : Bool
  zero : T

def staskOut {T : Type} (cfg : SPCfg T) (tid : Nat) : Outcome T :=
  ⟨(cfg.tasks tid).1, (cfg.tasks tid).2⟩

def scancelOut {T : Type} (cfg : SPCfg T) : Outcome T :=
  ⟨cfg.zero, some .canceled⟩

/-- Shared state of a streaming pool execution.  `parked` lists the
`Submit` calls currently enqueued on the `tasks` channel's send queue;
`workers` lists the dispatched worker goroutines (task id and phase) in
dispatch order; `subRes` records each resolved `Submit` call with
`true` for a nil return (accepted) and `false` for `ErrPoolClosed`. -/
structure SPState (T : Type) where
  doneClosed : Bool
  cancelled : Bool
  parked : List Nat
  dphase : DPhase
  workers : List (Nat × WPhase T)
  results : List (Outcome T)
  resultsClosed : Bool
  subRes : List (Nat × Bool)
deriving DecidableEq

def spInit {T : Type} : SPState T :=
  ⟨false, false, [], .mainPoll, [], [], false, []⟩

/-- The dispatcher accepts task `tid`: `dispatch(fn)` runs, adding the
worker to the wait group and spawning it, and the submitter's send
completes with a nil return. -/
def spAccept {T : Type} (s : SPState T) (tid : Nat) : SPState T :=
  { s with workers := s.workers ++ [(tid, .idle)],
           subRes := s.subRes ++ [(tid, true)] }

/-- Scheduler events of a streaming pool execution. -/
inductive SPEv where
  | submitPark (tid : Nat) : SPEv
  | submitPairParked (tid : Nat) : SPEv
  | submitSeeClosed (tid : Nat) : SPEv
  | closeCall : SPEv
  | cancelCall : SPEv
  | dAcceptParked : SPEv
  | dSeeDone : SPEv
  | dPark : SPEv
  | dDrainAccept : SPEv
  | dDrainDefault : SPEv
  | dCloseResults : SPEv
  | wstep (k : Nat) : SPEv
deriving DecidableEq

/-- Micro-step of dispatched worker `k` — the same four program points
as a fixed-pool worker, sending the unindexed outcome on `results`. -/
def sworkStep {T : Type} (cfg : SPCfg T) (s : SPState T) (k : Nat) : SPState T :=
  match s.workers.get? k with
  | none => s
  | some (tid, .idle) =>
      if s.cancelled then
        { s with workers := s.workers.set k (tid, .toCancel (scancelOut cfg) false) }
      else
        { s with workers := s.workers.set k (tid, .running) }
  | some (tid, .running) =>
      { s with workers := s.workers.set k (tid, .toCancel (staskOut cfg tid) true) }
  | some (tid, .toCancel o inv) =>
      { s with cancelled := s.cancelled || (cfg.failFast && o.err.isSome),
               workers := s.workers.set k (tid, .toPublish o inv) }
  | some (tid, .toPublish o inv) =>
      { s with results := s.results ++ [o],
               workers := s.workers.set k (tid, .done o inv) }
  | some (_, .done _ _) => s

/-- All dispatched workers have published (`wg.Wait()` would return). -/
def allDoneW {T : Type} (s : SPState T) : Bool :=
  s.workers.all (fun p => isDonePh p.2)

/-- One interleaving step of a streaming pool:

* `submitPark`: a `Submit` polls, finds neither case ready (pool not
  closed, dispatcher not parked on `tasks`), and parks on `tasks`;
* `submitPairParked`: a `Submit` polls while the dispatcher is parked
  on its main `select`; the rendezvous completes and the dispatcher
  dispatches the task;
* `submitSeeClosed`: a `Submit` resolves through the ready `<-done`
  case of a closed pool and returns `ErrPoolClosed`;
* `closeCall`: `Close()` — `closeOnce` makes a second call a no-op —
  closes `done` and thereby claims the parked dispatcher (which will
  resume in the drain loop) and every parked submitter (which returns
  `ErrPoolClosed`);
* `cancelCall`: `StreamPool.Cancel()`;
* `dAcceptParked` / `dDrainAccept`: the dispatcher's main/drain
  `select` polls `tasks` and completes the rendezvous with the first
  parked submitter;
* `dSeeDone`: the main `select` takes the ready `<-done` case;
* `dPark`: the main `select` finds no ready case and parks;
* `dDrainDefault`: the drain `select` finds no parked sender and takes
  `default`, moving to `wg.Wait()`;
* `dCloseResults`: `wg.Wait()` returns — all workers done — and the
  dispatcher closes `results`;
* `wstep k`: a worker micro-step. -/
def spstep {T : Type} (cfg : SPCfg T) (s : SPState T) : SPEv → SPState T
  | .submitPark tid =>
      if s.doneClosed = false ∧ s.dphase ≠ .mainParked then
        { s with parked := s.parked ++ [tid] }
      else s
  | .submitPairParked tid =>
      if s.dphase = .mainParked then
        { spAccept s tid with dphase := .mainPoll }
      else s
  | .submitSeeClosed tid =>
      if s.doneClosed then { s with subRes := s.subRes ++ [(tid, false)] }
      else s
  | .closeCall =>
      { s with doneClosed := true,
               dphase := if s.dphase = .mainParked then .draining else s.dphase,
               parked := [],
               subRes := s.subRes ++ s.parked.map (fun tid => (tid, false)) }
  | .cancelCall => { s with cancelled := true }
  | .dAcceptParked =>
      if s.dphase = .mainPoll then
        match s.parked with
        | [] => s
        | tid :: rest => { spAccept s tid with parked := rest }
      else s
  | .dSeeDone =>
      if s.dphase = .mainPoll ∧ s.doneClosed then { s with dphase := .draining }
      else s
  | .dPark =>
      if s.dphase = .mainPoll ∧ s.parked = [] ∧ s.doneClosed = false then
        { s with dphase := .mainParked }
      else s
  | .dDrainAccept =>
      if s.dphase = .draining then
        match s.parked with
        | [] => s
        | tid :: rest => { spAccept s tid with parked := rest }
      else s
  | .dDrainDefault =>
      if s.dphase = .draining ∧ s.parked = [] then { s with dphase := .waiting }
      else s
  | .dCloseResults =>
      if s.dphase = .waiting ∧ allDoneW s then
        { s with resultsClosed := true, dphase := .finished }
      else s
  | .wstep k => sworkStep cfg s k

/-- A streaming pool execution from the initial state. -/
def spRun {T : Type} (cfg : SPCfg T) (evs : List SPEv) : SPState T :=
  evs.foldl (spstep cfg) spInit

/-! ### Streaming pool: invariant -/

/-- Outcome consistency of a streaming worker's phase. -/
def sphaseOutOK {T : Type} (cfg : SPCfg T) (tid : Nat) : WPhase T → Prop
  | .toCancel o inv => (inv = true ∧ o = staskOut cfg tid) ∨
      (inv = false ∧ o = scancelOut cfg)
  | .toPublish o inv => (inv = true ∧ o = staskOut cfg tid) ∨
      (inv = false ∧ o = scancelOut cfg)
  | .done o inv => (inv = true ∧ o = staskOut cfg tid) ∨
      (inv = false ∧ o = scancelOut cfg)
  | _ => True

/-- The execution invariant of a streaming pool:

1. a dispatcher parked on its main `select` implies the pool is not
   closed (a ready `<-done` case prevents parking, and `close(done)`
   claims a parked dispatcher);
2. once the pool is closed no submitter is parked — `close(done)`
   claimed them all and later `Submit` calls never park;
3. and 4. the results channel is closed only by the final dispatcher
   step, after every dispatched worker has published;
5. `ErrPoolClosed` is returned only when the pool is closed;
6. a nil return means the task was dispatched — it appears among the
   workers;
7. exactly one result has been published per finished worker;
8. every worker's decided outcome is its own task result or the
   cancellation outcome;
9. hence every published result is some task's value/error pair or the
   cancellation outcome;
10. and 11. with `failFast`, an errored outcome reaches the results
   channel only after the pool has been cancelled — the worker's
   cancellation step precedes its publication step. -/
def SPInv {T : Type} (cfg : SPCfg T) (s : SPState T) : Prop :=
  (s.dphase = .mainParked → s.doneClosed = false) ∧
  (s.doneClosed = true → s.parked = []) ∧
  (s.resultsClosed = true → s.dphase = .finished) ∧
  (s.resultsClosed = true → allDoneW s = true) ∧
  (∀ tid, (tid, false) ∈ s.subRes → s.doneClosed = true) ∧
  (∀ tid, (tid, true) ∈ s.subRes → tid ∈ s.workers.map Prod.fst) ∧
  (s.results.length = s.workers.countP (fun p => isDonePh p.2)) ∧
  (∀ p, p ∈ s.workers → sphaseOutOK cfg p.1 p.2) ∧
  (∀ o, o ∈ s.results → (∃ tid, o = staskOut cfg tid) ∨ o = scancelOut cfg) ∧
  (cfg.failFast = true → ∀ o, o ∈ s.results → o.err.isSome = true →
    s.cancelled = true) ∧
  (cfg.failFast = true → ∀ p, p ∈ s.workers → ∀ o inv,
    p.2 = WPhase.toPublish o inv → o.err.isSome = true → s.cancelled = true)

/-- Once a streaming worker's outcome is decided it never changes. -/
def sDecided {T : Type} (s : SPState T) (k tid : Nat) (o : Outcome T)
    (inv : Bool) : Prop :=
  s.workers.get? k = some (tid, .toCancel o inv) ∨
  s.workers.get? k = some (tid, .toPublish o inv) ∨
  s.workers.get? k = some (tid, .done o inv)

/-! ## Observation functions and concrete instances used by the claims -/

/-- The index-ordered success values of a completed pool run. -/
def successList {T : Type} (cfg : PoolCfg T) (s : PState T) : List T :=
  (List.range cfg.size).filterMap
    (fun i => if (outcomeAt cfg s i).err.isSome then none
              else some (outcomeAt cfg s i).val)

/-- The index-ordered errors of a completed pool run. -/
def errorList {T : Type} (cfg : PoolCfg T) (s : PState T) : List GoError :=
  (List.range cfg.size).filterMap (fun i => (outcomeAt cfg s i).err)

/-- The spec's running example: a fixed pool with concurrency 2 and
size 5 whose task errs exactly at index 3. -/
def cfgEx5 : PoolCfg Nat :=
  ⟨2, 5, fun i => if i = 3 then (0, some (.userErr 3)) else (100 + i, none),
   false, 0⟩

/-- A schedule for `cfgEx5` that brings every worker to its publication
point and then publishes in the scrambled completion order 4,2,0,3,1. -/
def evs5 : List PEv :=
  [.work 0, .work 0, .work 0, .work 1, .work 1, .work 1,
   .work 2, .work 2, .work 2, .work 3, .work 3, .work 3,
   .work 4, .work 4, .work 4,
   .work 4, .work 2, .work 0, .work 3, .work 1]

/-- A fail-fast pool of three tasks whose task 0 errs. -/
def cfgC5 : PoolCfg Nat :=
  ⟨3, 3, fun i => if i = 0 then (0, some (.userErr 7)) else (i, none),
   true, 0⟩

/-- Worker 0 checks and invokes its (failing) task; its fail-fast
cancellation step has not run yet. -/
def pre5 : List PEv := [.work 0, .work 0]

/-- Completion of `pre5` in which workers 1 and 2 pass their checks
between task 0's error return and the fail-fast cancellation. -/
def evsC5 : List PEv :=
  pre5 ++ [.work 1, .work 2, .work 0, .work 0,
           .work 1, .work 1, .work 1, .work 2, .work 2, .work 2]

/-- Worker 0 checks, runs its failing task, and performs the fail-fast
cancellation; workers 1 and 2 have not checked yet. -/
def evsA : List PEv := [.work 0, .work 0, .work 0]

/-- Completion of `evsA`: workers 1 and 2 check after the cancellation. -/
def evsB : List PEv :=
  [.work 0, .work 1, .work 1, .work 1, .work 2, .work 2, .work 2]

/-- A pool whose single task returns a non-zero value together with an
error. -/
def cfgC9 : PoolCfg Nat := ⟨1, 1, fun _ => (7, some (.userErr 1)), false, 0⟩

def evsC9 : List PEv := [.work 0, .work 0, .work 0, .work 0]

/-- A fixed pool of size 0. -/
def cfg0 : PoolCfg Nat := ⟨0, 0, fun _ => (0, none), false, 0⟩

/-- A streaming pool whose task `tid` returns `tid` without error. -/
def scfgW : SPCfg Nat := ⟨2, fun tid => (tid, none), false, 0⟩

/-- Submit task 5, dispatch it, close the pool, run the worker to
completion, then let the dispatcher drain and close the results. -/
def evsW : List SPEv :=
  [.submitPark 5, .dAcceptParked, .closeCall,
   .wstep 0, .wstep 0, .wstep 0, .wstep 0,
   .dSeeDone, .dDrainDefault, .dCloseResults]

theorem procCalls_state {T : Type} (cfg : ProcCfg T) (n : Nat) :
    (procCalls cfg n).1 =
      if n = 0 then procInit
      else ⟨some (procResolved cfg),
            if cfg.ctxCancelledAtCheck then 0 else 1⟩ := by
  induction n with
  | zero => rfl
  | succ m ih =>
      by_cases hm : m = 0
      · subst hm
        show (procGoStep cfg (procCalls cfg 0).1).1 = _
        cases h : cfg.ctxCancelledAtCheck <;>
          simp [procCalls, procGoStep, procInit, h]
      · show (procGoStep cfg (procCalls cfg m).1).1 = _
        rw [ih]
        simp [hm, procGoStep]

theorem procGoStep_out {T : Type} (cfg : ProcCfg T) (n : Nat) :
    (procGoStep cfg (procCalls cfg n).1).2 = procResolved cfg := by
  rw [procCalls_state]
  by_cases hm : n = 0 <;> simp [hm, procGoStep, procInit]

theorem procCalls_outputs {T : Type} (cfg : ProcCfg T) (n : Nat) :
    (procCalls cfg n).2 = List.replicate n (procResolved cfg) := by
  induction n with
  | zero => rfl
  | succ m ih =>
      show (procCalls cfg m).2 ++ [(procGoStep cfg (procCalls cfg m).1).2] = _
      rw [ih, procGoStep_out, List.replicate_succ']

theorem procCalls_invocations {T : Type} (cfg : ProcCfg T) (n : Nat) :
    (procCalls cfg n).1.invocations =
      if n = 0 ∨ cfg.ctxCancelledAtCheck then 0 else 1 := by
  rw [procCalls_state]
  by_cases hm : n = 0
  · simp [hm, procInit]
  · cases h : cfg.ctxCancelledAtCheck <;> simp [hm, h]

theorem runCalls_append (m : Nat) (xs ys : List PoolCall) :
    runCalls m (xs ++ ys) =
      match runCalls m xs with
      | none => none
      | some m2 => runCalls m2 ys := by
  induction xs generalizing m with
  | nil => simp [runCalls]
  | cons c cs ih =>
      show runCalls m (c :: (cs ++ ys)) = _
      cases hc : modeStep m c with
      | none => simp [runCalls, hc]
      | some m2 => simp [runCalls, hc, ih m2]

/-- From mode 1 (streamed), every non-aborting call sequence ends in
mode 1: `Collect()` from mode 1 aborts and `Go()` keeps mode 1. -/
theorem runCalls_from_one (xs : List PoolCall) (m2 : Nat)
    (h : runCalls 1 xs = some m2) : m2 = 1 := by
  induction xs with
  | nil => simpa [runCalls] using h.symm
  | cons c cs ih =>
      cases c with
      | goCall => exact ih (by simpa [runCalls, modeStep] using h)
      | collectCall => simp [runCalls, modeStep] at h

/-- From mode 2 (collected), every further call aborts. -/
theorem runCalls_from_two (xs : List PoolCall) (m2 : Nat)
    (h : runCalls 2 xs = some m2) : xs = [] ∧ m2 = 2 := by
  cases xs with
  | nil => exact ⟨rfl, by simpa [runCalls] using h.symm⟩
  | cons c cs =>
      cases c with
      | goCall => simp [runCalls, modeStep] at h
      | collectCall => simp [runCalls, modeStep] at h

/-- A non-aborting call sequence containing a `Go()` (or `Wait()`)
leaves the mode at 1. -/
theorem runCalls_mode_of_go (xs : List PoolCall) (m m2 : Nat)
    (hmem : PoolCall.goCall ∈ xs) (h : runCalls m xs = some m2) :
    m2 = 1 := by
  induction xs generalizing m with
  | nil => cases hmem
  | cons c cs ih =>
      unfold runCalls at h
      cases hc : modeStep m c with
      | none => rw [hc] at h; cases h
      | some mNext =>
          rw [hc] at h
          cases c with
          | goCall =>
              have hnext : mNext = 1 := by
                unfold modeStep at hc
                by_cases h2 : m = 2 <;> simp [h2] at hc
                exact hc.symm
              exact runCalls_from_one cs m2 (hnext ▸ h)
          | collectCall =>
              have hmem2 : PoolCall.goCall ∈ cs := by
                simpa using hmem
              exact ih mNext hmem2 h

/-- From mode 1 (streamed), a call sequence containing a `Collect()`
always aborts. -/
theorem runCalls_from_one_collect (xs : List PoolCall)
    (hmem : PoolCall.collectCall ∈ xs) : runCalls 1 xs = none := by
  induction xs with
  | nil => cases hmem
  | cons c cs ih =>
      cases c with
      | goCall =>
          have : runCalls 1 cs = none := ih (by simpa using hmem)
          simpa [runCalls, modeStep] using this
      | collectCall => simp [runCalls, modeStep]

/-- A non-aborting call sequence containing a `Collect()` leaves the
mode at 2. -/
theorem runCalls_mode_of_collect (xs : List PoolCall) (m m2 : Nat)
    (hmem : PoolCall.collectCall ∈ xs) (h : runCalls m xs = some m2) :
    m2 = 2 := by
  induction xs generalizing m with
  | nil => cases hmem
  | cons c cs ih =>
      unfold runCalls at h
      cases hc : modeStep m c with
      | none => rw [hc] at h; cases h
      | some mNext =>
          rw [hc] at h
          cases c with
          | goCall =>
              have hnext : mNext = 1 := by
                unfold modeStep at hc
                by_cases h2 : m = 2 <;> simp [h2] at hc
                exact hc.symm
              have hmem2 : PoolCall.collectCall ∈ cs := by
                simpa using hmem
              have h' : runCalls mNext cs = some m2 := h
              rw [hnext, runCalls_from_one_collect cs hmem2] at h'
              cases h'
          | collectCall =>
              have hnext : mNext = 2 := by
                unfold modeStep at hc
                by_cases h0 : m = 0 <;> simp [h0] at hc
                exact hc.symm
              have h' : runCalls mNext cs = some m2 := h
              exact (runCalls_from_two cs m2 (hnext ▸ h')).2

/-- Repeated `Go()` calls never abort. -/
theorem runCalls_go_replicate (n : Nat) :
    runCalls 0 (List.replicate n .goCall) =
      some (if n = 0 then 0 else 1) := by
  cases n with
  | zero => rfl
  | succ k =>
      show runCalls 0 (.goCall :: List.replicate k .goCall) = _
      have haux : runCalls 1 (List.replicate k .goCall) = some 1 := by
        induction k with
        | zero => rfl
        | succ j ihj =>
            show runCalls 1 (.goCall :: List.replicate j .goCall) = _
            simpa [runCalls, modeStep] using ihj
      simpa [runCalls, modeStep] using haux

/-! ### Fixed pool: basic step lemmas -/

theorem foldl_pres {T : Type} (cfg : PoolCfg T) {P : PState T → Prop}
    (h : ∀ s e, P s → P (pstep cfg s e)) :
    ∀ (evs : List PEv) (s : PState T), P s → P (evs.foldl (pstep cfg) s)
  | [], _, hs => hs
  | e :: evs, s, hs => foldl_pres cfg h evs (pstep cfg s e) (h s e hs)

theorem get?_some_lt {A : Type} (l : List A) (i : Nat) (a : A)
    (h : l.get? i = some a) : i < l.length := by
  rw [List.get?_eq_some] at h
  exact h.1

theorem pstep_phases_length {T : Type} (cfg : PoolCfg T) (s : PState T)
    (e : PEv) : (pstep cfg s e).phases.length = s.phases.length := by
  cases e with
  | cancelEv => rfl
  | work i =>
      show (workStep cfg s i).phases.length = _
      unfold workStep
      cases hph : s.phases.get? i with
      | none => rfl
      | some ph =>
          cases ph <;> by_cases hc : s.cancelled <;>
            simp [hc, List.length_set]

theorem pstep_cancelled_mono {T : Type} (cfg : PoolCfg T) (s : PState T)
    (e : PEv) (h : s.cancelled = true) : (pstep cfg s e).cancelled = true := by
  cases e with
  | cancelEv => rfl
  | work i =>
      show (workStep cfg s i).cancelled = true
      unfold workStep
      cases hph : s.phases.get? i with
      | none => exact h
      | some ph =>
          cases ph <;> simp [h]

theorem prun_cancelled_mono {T : Type} (cfg : PoolCfg T) (evs : List PEv)
    (s : PState T) (h : s.cancelled = true) :
    (evs.foldl (pstep cfg) s).cancelled = true :=
  foldl_pres cfg (fun s e hs => pstep_cancelled_mono cfg s e hs) evs s h

theorem pstep_get?_cancelEv {T : Type} (cfg : PoolCfg T) (s : PState T)
    (i : Nat) : (pstep cfg s .cancelEv).phases.get? i = s.phases.get? i := rfl

theorem pstep_get?_other {T : Type} (cfg : PoolCfg T) (s : PState T)
    (i j : Nat) (hne : j ≠ i) :
    (pstep cfg s (.work j)).phases.get? i = s.phases.get? i := by
  show (workStep cfg s j).phases.get? i = _
  unfold workStep
  cases hph : s.phases.get? j with
  | none => rfl
  | some ph =>
      cases ph <;> by_cases hc : s.cancelled <;>
        simp [hc, List.get?_eq_getElem?, List.getElem?_set_ne hne]

theorem pstep_decided {T : Type} (cfg : PoolCfg T) (s : PState T) (e : PEv)
    (i : Nat) (o : Outcome T) (inv : Bool) (h : Decided s i o inv) :
    Decided (pstep cfg s e) i o inv := by
  cases e with
  | cancelEv => exact h
  | work j =>
      by_cases hji : j = i
      · subst hji
        show Decided (workStep cfg s j) j o inv
        rcases h with h | h | h <;>
          · have hlt := get?_some_lt _ _ _ h
            unfold workStep Decided
            simp only [h]
            simp [List.get?_eq_getElem?, List.getElem?_set_eq hlt]
      · show Decided (pstep cfg s (.work j)) i o inv
        unfold Decided
        rw [pstep_get?_other cfg s i j hji]
        exact h

theorem run_decided {T : Type} (cfg : PoolCfg T) (evs : List PEv)
    (s : PState T) (i : Nat) (o : Outcome T) (inv : Bool)
    (h : Decided s i o inv) :
    Decided (evs.foldl (pstep cfg) s) i o inv :=
  foldl_pres cfg (fun s e hs => pstep_decided cfg s e i o inv hs) evs s h

theorem allDone_get? {T : Type} (s : PState T) (i : Nat) (ph : WPhase T)
    (hall : allDone s = true) (h : s.phases.get? i = some ph) :
    isDonePh ph = true := by
  have hmem : ph ∈ s.phases := List.get?_mem h
  exact List.all_eq_true.mp hall ph hmem

theorem decided_allDone {T : Type} (s : PState T) (i : Nat) (o : Outcome T)
    (inv : Bool) (hall : allDone s = true) (h : Decided s i o inv) :
    s.phases.get? i = some (.done o inv) := by
  rcases h with h | h | h
  · exact absurd (allDone_get? s i _ hall h) (by simp [isDonePh])
  · exact absurd (allDone_get? s i _ hall h) (by simp [isDonePh])
  · exact h

/-! ### Fixed pool: the pre-execution check and the task invocation -/

/-- A worker whose pre-execution check runs while the shared context is
already cancelled takes the cancellation outcome; its `invoked` flag is
`false` — the task body is skipped. -/
theorem workStep_idle_cancelled {T : Type} (cfg : PoolCfg T) (s : PState T)
    (i : Nat) (hc : s.cancelled = true)
    (h : s.phases.get? i = some .idle) :
    (workStep cfg s i).phases.get? i =
      some (.toCancel (cancelOut cfg) false) := by
  have hlt := get?_some_lt _ _ _ h
  unfold workStep
  simp only [h, hc]
  simp [List.get?_eq_getElem?, List.getElem?_set_eq hlt]

/-- A worker whose pre-execution check runs while the shared context is
not cancelled proceeds to invoke its task. -/
theorem workStep_idle_live {T : Type} (cfg : PoolCfg T) (s : PState T)
    (i : Nat) (hc : s.cancelled = false)
    (h : s.phases.get? i = some .idle) :
    (workStep cfg s i).phases.get? i = some .running := by
  have hlt := get?_some_lt _ _ _ h
  unfold workStep
  simp only [h, hc]
  simp [List.get?_eq_getElem?, List.getElem?_set_eq hlt]

/-- The task invocation step: the worker's outcome becomes the task's
value/error pair and its `invoked` flag is `true`. -/
theorem workStep_running {T : Type} (cfg : PoolCfg T) (s : PState T)
    (i : Nat) (h : s.phases.get? i = some .running) :
    (workStep cfg s i).phases.get? i =
      some (.toCancel (taskOut cfg i) true) := by
  have hlt := get?_some_lt _ _ _ h
  unfold workStep
  simp only [h]
  simp [List.get?_eq_getElem?, List.getElem?_set_eq hlt]

/-- In a completed execution, a worker that was still unchecked while
the pool was already cancelled finishes with the cancellation outcome
and its task body is never invoked. -/
theorem run_idle_cancelled_final {T : Type} (cfg : PoolCfg T)
    (evs : List PEv) (s : PState T) (i : Nat)
    (hc : s.cancelled = true) (hidle : s.phases.get? i = some .idle)
    (hall : allDone (evs.foldl (pstep cfg) s) = true) :
    (evs.foldl (pstep cfg) s).phases.get? i =
      some (.done (cancelOut cfg) false) := by
  induction evs generalizing s with
  | nil => exact absurd (allDone_get? s i _ hall hidle) (by simp [isDonePh])
  | cons e evs ih =>
      show (evs.foldl (pstep cfg) (pstep cfg s e)).phases.get? i = _
      by_cases he : e = PEv.work i
      · subst he
        have hstep := workStep_idle_cancelled cfg s i hc hidle
        have hdec : Decided (pstep cfg s (.work i)) i (cancelOut cfg) false :=
          Or.inl hstep
        exact decided_allDone _ i _ _ hall (run_decided cfg evs _ i _ _ hdec)
      · have h1 : (pstep cfg s e).phases.get? i = some .idle := by
          cases e with
          | cancelEv => exact hidle
          | work j =>
              have hji : j ≠ i := fun hj => he (by rw [hj])
              rw [pstep_get?_other cfg s i j hji]
              exact hidle
        exact ih (pstep cfg s e) (pstep_cancelled_mono cfg s e hc) h1 hall

/-- In a completed execution, a worker that has invoked its task (is in
`running`) finishes with that task's value/error pair as its outcome. -/
theorem run_running_final {T : Type} (cfg : PoolCfg T)
    (evs : List PEv) (s : PState T) (i : Nat)
    (hrun : s.phases.get? i = some .running)
    (hall : allDone (evs.foldl (pstep cfg) s) = true) :
    (evs.foldl (pstep cfg) s).phases.get? i =
      some (.done (taskOut cfg i) true) := by
  induction evs generalizing s with
  | nil => exact absurd (allDone_get? s i _ hall hrun) (by simp [isDonePh])
  | cons e evs ih =>
      show (evs.foldl (pstep cfg) (pstep cfg s e)).phases.get? i = _
      by_cases he : e = PEv.work i
      · subst he
        have hstep := workStep_running cfg s i hrun
        have hdec : Decided (pstep cfg s (.work i)) i (taskOut cfg i) true :=
          Or.inl hstep
        exact decided_allDone _ i _ _ hall (run_decided cfg evs _ i _ _ hdec)
      · have h1 : (pstep cfg s e).phases.get? i = some .running := by
          cases e with
          | cancelEv => exact hrun
          | work j =>
              have hji : j ≠ i := fun hj => he (by rw [hj])
              rw [pstep_get?_other cfg s i j hji]
              exact hrun
        exact ih (pstep cfg s e) h1 hall

theorem idxCount_append {T : Type} (i j : Nat) (o : Outcome T)
    (feed : List (Nat × Outcome T)) :
    idxCount i (feed ++ [(j, o)]) =
      idxCount i feed + (if j = i then 1 else 0) := by
  simp [idxCount, List.count_append, List.count_singleton']

theorem idxCount_zero_not_mem {T : Type} (i : Nat)
    (feed : List (Nat × Outcome T)) (h : idxCount i feed = 0)
    (o : Outcome T) : (i, o) ∉ feed := by
  intro hmem
  have : i ∈ feed.map Prod.fst := List.mem_map_of_mem Prod.fst hmem
  exact List.count_eq_zero.mp h this

theorem pInv_init {T : Type} (cfg : PoolCfg T) : PInv cfg (pInit cfg) := by
  refine ⟨by simp [pInit], ?_, ?_, ?_, ?_, ?_⟩
  · intro i o hmem
    simp [pInit] at hmem
  · intro i
    have : doneAt (pInit cfg) i = false := by
      unfold doneAt pInit
      cases hg : (List.replicate cfg.size (WPhase.idle (T := T))).get? i with
      | none => rfl
      | some ph =>
          have := List.eq_of_mem_replicate (List.get?_mem hg)
          rw [this]
    rw [this]
    simp [idxCount, pInit]
  · intro i ph hph
    have := List.eq_of_mem_replicate (List.get?_mem (by simpa [pInit] using hph))
    rw [this]
    trivial
  · intro _ i o hmem
    simp [pInit] at hmem
  · intro _ i o inv hph
    have := List.eq_of_mem_replicate (List.get?_mem (by simpa [pInit] using hph))
    cases this

theorem get?_set_cases {A : Type} (l : List A) (i j : Nat) (a : A)
    (hlt : i < l.length) :
    (l.set i a).get? j = if i = j then some a else l.get? j := by
  by_cases h : i = j
  · subst h
    simp [List.get?_eq_getElem?, List.getElem?_set_eq hlt]
  · simp [h, List.get?_eq_getElem?, List.getElem?_set_ne h]

theorem pstep_inv {T : Type} (cfg : PoolCfg T) (s : PState T) (e : PEv)
    (h : PInv cfg s) : PInv cfg (pstep cfg s e) := by
  obtain ⟨h1, h2, h3, h4, h5, h6⟩ := h
  cases e with
  | cancelEv =>
      exact ⟨h1, h2, h3, h4, fun _ _ _ _ _ => rfl, fun _ _ _ _ _ _ => rfl⟩
  | work i =>
      show PInv cfg (workStep cfg s i)
      cases hph : s.phases.get? i with
      | none =>
          have hid : workStep cfg s i = s := by
            unfold workStep
            rw [hph]
          rw [hid]
          exact ⟨h1, h2, h3, h4, h5, h6⟩
      | some ph =>
      have hlt := get?_some_lt _ _ _ hph
      have hcnt0 : ∀ phx, s.phases.get? i = some phx → isDonePh phx = false →
          idxCount i s.feed = 0 := by
        intro phx hphx hnd
        have hdone : doneAt s i = false := by
          unfold doneAt
          rw [hphx]
          cases phx <;> first | rfl | cases hnd
        have := h3 i
        rw [hdone] at this
        simpa using this
      cases ph with
      | done o inv =>
          have hid : workStep cfg s i = s := by
            unfold workStep
            rw [hph]
          rw [hid]
          exact ⟨h1, h2, h3, h4, h5, h6⟩
      | idle =>
          have hcnt := hcnt0 _ hph rfl
          by_cases hc : s.cancelled
          · have hid : workStep cfg s i =
                { s with phases := s.phases.set i (.toCancel (cancelOut cfg) false) } := by
              unfold workStep
              rw [hph]
              simp [hc]
            rw [hid]
            have hgets : ∀ j, (s.phases.set i (WPhase.toCancel (cancelOut cfg) false)).get? j =
                if i = j then some (.toCancel (cancelOut cfg) false)
                else s.phases.get? j :=
              fun j => get?_set_cases s.phases i j _ hlt
            refine ⟨by simpa [List.length_set] using h1, ?_, ?_, ?_, h5, ?_⟩
            · intro j o hmem
              by_cases hij : i = j
              · exact absurd hmem (hij ▸ idxCount_zero_not_mem i s.feed hcnt o)
              · obtain ⟨inv, hj⟩ := h2 j o hmem
                exact ⟨inv, by rw [hgets j, if_neg hij]; exact hj⟩
            · intro j
              by_cases hij : i = j
              · subst hij
                have hdone : doneAt { s with phases := s.phases.set i (WPhase.toCancel (cancelOut cfg) false) } i = false := by
                  unfold doneAt
                  rw [hgets i, if_pos rfl]
                rw [hdone]
                simpa using hcnt
              · have hdone : doneAt { s with phases := s.phases.set i (WPhase.toCancel (cancelOut cfg) false) } j =
                    doneAt s j := by
                  unfold doneAt
                  rw [hgets j, if_neg hij]
                rw [hdone]
                exact h3 j
            · intro j phx hphx
              rw [hgets j] at hphx
              by_cases hij : i = j
              · rw [if_pos hij] at hphx
                cases hphx
                exact Or.inr ⟨rfl, rfl⟩
              · rw [if_neg hij] at hphx
                exact h4 j phx hphx
            · intro hff j o inv hphx herr
              rw [hgets j] at hphx
              by_cases hij : i = j
              · rw [if_pos hij] at hphx
                cases hphx
              · rw [if_neg hij] at hphx
                exact h6 hff j o inv hphx herr
          · have hid : workStep cfg s i =
                { s with phases := s.phases.set i .running } := by
              unfold workStep
              rw [hph]
              simp [hc]
            rw [hid]
            have hgets : ∀ j, (s.phases.set i (WPhase.running (T := T))).get? j =
                if i = j then some .running else s.phases.get? j :=
              fun j => get?_set_cases s.phases i j _ hlt
            refine ⟨by simpa [List.length_set] using h1, ?_, ?_, ?_, h5, ?_⟩
            · intro j o hmem
              by_cases hij : i = j
              · exact absurd hmem (hij ▸ idxCount_zero_not_mem i s.feed hcnt o)
              · obtain ⟨inv, hj⟩ := h2 j o hmem
                exact ⟨inv, by rw [hgets j, if_neg hij]; exact hj⟩
            · intro j
              by_cases hij : i = j
              · subst hij
                have hdone : doneAt { s with phases := s.phases.set i (WPhase.running (T := T)) } i = false := by
                  unfold doneAt
                  rw [hgets i, if_pos rfl]
                rw [hdone]
                simpa using hcnt
              · have hdone : doneAt { s with phases := s.phases.set i (WPhase.running (T := T)) } j = doneAt s j := by
                  unfold doneAt
                  rw [hgets j, if_neg hij]
                rw [hdone]
                exact h3 j
            · intro j phx hphx
              rw [hgets j] at hphx
              by_cases hij : i = j
              · rw [if_pos hij] at hphx
                cases hphx
                trivial
              · rw [if_neg hij] at hphx
                exact h4 j phx hphx
            · intro hff j o inv hphx herr
              rw [hgets j] at hphx
              by_cases hij : i = j
              · rw [if_pos hij] at hphx
                cases hphx
              · rw [if_neg hij] at hphx
                exact h6 hff j o inv hphx herr
      | running =>
          have hcnt := hcnt0 _ hph rfl
          have hid : workStep cfg s i =
              { s with phases := s.phases.set i (.toCancel (taskOut cfg i) true) } := by
            unfold workStep
            rw [hph]
          rw [hid]
          have hgets : ∀ j, (s.phases.set i (WPhase.toCancel (taskOut cfg i) true)).get? j =
              if i = j then some (.toCancel (taskOut cfg i) true)
              else s.phases.get? j :=
            fun j => get?_set_cases s.phases i j _ hlt
          refine ⟨by simpa [List.length_set] using h1, ?_, ?_, ?_, h5, ?_⟩
          · intro j o hmem
            by_cases hij : i = j
            · exact absurd hmem (hij ▸ idxCount_zero_not_mem i s.feed hcnt o)
            · obtain ⟨inv, hj⟩ := h2 j o hmem
              exact ⟨inv, by rw [hgets j, if_neg hij]; exact hj⟩
          · intro j
            by_cases hij : i = j
            · subst hij
              have hdone : doneAt { s with phases := s.phases.set i (WPhase.toCancel (taskOut cfg i) true) } i = false := by
                unfold doneAt
                rw [hgets i, if_pos rfl]
              rw [hdone]
              simpa using hcnt
            · have hdone : doneAt { s with phases := s.phases.set i (WPhase.toCancel (taskOut cfg i) true) } j = doneAt s j := by
                unfold doneAt
                rw [hgets j, if_neg hij]
              rw [hdone]
              exact h3 j
          · intro j phx hphx
            rw [hgets j] at hphx
            by_cases hij : i = j
            · rw [if_pos hij] at hphx
              cases hphx
              exact hij ▸ Or.inl ⟨rfl, rfl⟩
            · rw [if_neg hij] at hphx
              exact h4 j phx hphx
          · intro hff j o inv hphx herr
            rw [hgets j] at hphx
            by_cases hij : i = j
            · rw [if_pos hij] at hphx
              cases hphx
            · rw [if_neg hij] at hphx
              exact h6 hff j o inv hphx herr
      | toCancel o inv =>
          have hcnt := hcnt0 _ hph rfl
          have hid : workStep cfg s i =
              { s with cancelled := s.cancelled || (cfg.failFast && o.err.isSome),
                       phases := s.phases.set i (.toPublish o inv) } := by
            unfold workStep
            rw [hph]
          rw [hid]
          have hgets : ∀ j, (s.phases.set i (WPhase.toPublish o inv)).get? j =
              if i = j then some (.toPublish o inv) else s.phases.get? j :=
            fun j => get?_set_cases s.phases i j _ hlt
          refine ⟨by simpa [List.length_set] using h1, ?_, ?_, ?_, ?_, ?_⟩
          · intro j o' hmem
            by_cases hij : i = j
            · exact absurd hmem (hij ▸ idxCount_zero_not_mem i s.feed hcnt o')
            · obtain ⟨inv', hj⟩ := h2 j o' hmem
              exact ⟨inv', by rw [hgets j, if_neg hij]; exact hj⟩
          · intro j
            by_cases hij : i = j
            · subst hij
              have hdone : doneAt { s with cancelled := s.cancelled || (cfg.failFast && o.err.isSome), phases := s.phases.set i (WPhase.toPublish o inv) } i =
                  false := by
                unfold doneAt
                rw [hgets i, if_pos rfl]
              rw [hdone]
              simpa using hcnt
            · have hdone : doneAt { s with cancelled := s.cancelled || (cfg.failFast && o.err.isSome), phases := s.phases.set i (WPhase.toPublish o inv) } j =
                  doneAt s j := by
                unfold doneAt
                rw [hgets j, if_neg hij]
              rw [hdone]
              exact h3 j
          · intro j phx hphx
            rw [hgets j] at hphx
            by_cases hij : i = j
            · rw [if_pos hij] at hphx
              cases hphx
              have := h4 i _ hph
              exact hij ▸ this
            · rw [if_neg hij] at hphx
              exact h4 j phx hphx
          · intro hff j o' hmem herr
            have := h5 hff j o' hmem herr
            simp [this]
          · intro hff j o' inv' hphx herr
            rw [hgets j] at hphx
            by_cases hij : i = j
            · rw [if_pos hij] at hphx
              cases hphx
              simp [hff, herr]
            · rw [if_neg hij] at hphx
              have := h6 hff j o' inv' hphx herr
              simp [this]
      | toPublish o inv =>
          have hcnt := hcnt0 _ hph rfl
          have hid : workStep cfg s i =
              { s with feed := s.feed ++ [(i, o)],
                       phases := s.phases.set i (.done o inv) } := by
            unfold workStep
            rw [hph]
          rw [hid]
          have hgets : ∀ j, (s.phases.set i (WPhase.done o inv)).get? j =
              if i = j then some (.done o inv) else s.phases.get? j :=
            fun j => get?_set_cases s.phases i j _ hlt
          refine ⟨by simpa [List.length_set] using h1, ?_, ?_, ?_, ?_, ?_⟩
          · intro j o' hmem
            rcases List.mem_append.mp hmem with hold | hnew
            · by_cases hij : i = j
              · exact absurd hold (hij ▸ idxCount_zero_not_mem i s.feed hcnt o')
              · obtain ⟨inv', hj⟩ := h2 j o' hold
                exact ⟨inv', by rw [hgets j, if_neg hij]; exact hj⟩
            · have hpair : j = i ∧ o' = o := by
                have := List.mem_singleton.mp hnew
                exact ⟨congrArg Prod.fst this, congrArg Prod.snd this⟩
              obtain ⟨hj, ho⟩ := hpair
              subst hj
              subst ho
              exact ⟨inv, by rw [hgets j, if_pos rfl]⟩
          · intro j
            rw [idxCount_append]
            by_cases hij : i = j
            · subst hij
              have hdone : doneAt { s with feed := s.feed ++ [(i, o)], phases := s.phases.set i (WPhase.done o inv) } i = true := by
                unfold doneAt
                rw [hgets i, if_pos rfl]
              rw [hdone, hcnt]
              simp
            · have hdone : doneAt { s with feed := s.feed ++ [(i, o)], phases := s.phases.set i (WPhase.done o inv) } j =
                  doneAt s j := by
                unfold doneAt
                rw [hgets j, if_neg hij]
              rw [hdone]
              have := h3 j
              simp [hij, this]
          · intro j phx hphx
            rw [hgets j] at hphx
            by_cases hij : i = j
            · rw [if_pos hij] at hphx
              cases hphx
              have := h4 i _ hph
              exact hij ▸ this
            · rw [if_neg hij] at hphx
              exact h4 j phx hphx
          · intro hff j o' hmem herr
            rcases List.mem_append.mp hmem with hold | hnew
            · exact h5 hff j o' hold herr
            · have hpair : j = i ∧ o' = o := by
                have := List.mem_singleton.mp hnew
                exact ⟨congrArg Prod.fst this, congrArg Prod.snd this⟩
              obtain ⟨hj, ho⟩ := hpair
              subst hj
              subst ho
              exact h6 hff j o' inv hph herr
          · intro hff j o' inv' hphx herr
            rw [hgets j] at hphx
            by_cases hij : i = j
            · rw [if_pos hij] at hphx
              cases hphx
            · rw [if_neg hij] at hphx
              exact h6 hff j o' inv' hphx herr

theorem prun_inv {T : Type} (cfg : PoolCfg T) (evs : List PEv) :
    PInv cfg (prun cfg evs) :=
  foldl_pres cfg (fun s e hs => pstep_inv cfg s e hs) evs (pInit cfg)
    (pInv_init cfg)

/-! ### Fixed pool: rebuilding the index-ordered buffer -/

theorem foldl_set_get? {A : Type} (f : Nat → A) :
    ∀ (feed : List (Nat × A)) (base : List A) (j : Nat),
    (∀ p, p ∈ feed → p.1 < base.length ∧ p.2 = f p.1) →
    (feed.foldl (fun acc ir => acc.set ir.1 ir.2) base).get? j =
      if j ∈ feed.map Prod.fst then some (f j) else base.get? j := by
  intro feed
  induction feed with
  | nil => intro base j _; simp
  | cons p rest ih =>
      intro base j hcond
      obtain ⟨hplt, hpo⟩ := hcond p (List.mem_cons_self p rest)
      have hcond' : ∀ q, q ∈ rest → q.1 < (base.set p.1 p.2).length ∧
          q.2 = f q.1 := by
        intro q hq
        obtain ⟨hq1, hq2⟩ := hcond q (List.mem_cons_of_mem p hq)
        exact ⟨by simpa [List.length_set] using hq1, hq2⟩
      show (rest.foldl (fun acc ir => acc.set ir.1 ir.2)
        (base.set p.1 p.2)).get? j = _
      rw [ih (base.set p.1 p.2) j hcond']
      by_cases hj : j ∈ rest.map Prod.fst
      · have hmem : j ∈ (p :: rest).map Prod.fst := by
          simp only [List.map_cons, List.mem_cons]
          exact Or.inr hj
        rw [if_pos hj, if_pos hmem]
      · by_cases hji : j = p.1
        · have hmem : j ∈ (p :: rest).map Prod.fst := by
            simp only [List.map_cons, List.mem_cons]
            exact Or.inl hji
          have hv : (base.set p.1 p.2).get? j = some (f j) := by
            rw [hji, hpo]
            simp [List.get?_eq_getElem?, List.getElem?_set_eq hplt]
          rw [if_neg hj, if_pos hmem]
          exact hv
        · have hmem : j ∉ (p :: rest).map Prod.fst := by
            simp only [List.map_cons, List.mem_cons]
            rintro (hx | hx)
            · exact hji hx
            · exact hj hx
          have hv : (base.set p.1 p.2).get? j = base.get? j := by
            have hne : p.1 ≠ j := fun hx => hji hx.symm
            simp [List.get?_eq_getElem?, List.getElem?_set_ne hne]
          rw [if_neg hj, if_neg hmem]
          exact hv

theorem allDone_doneAt {T : Type} (s : PState T) (j : Nat)
    (hall : allDone s = true) (hlt : j < s.phases.length) :
    doneAt s j = true := by
  have hget : s.phases.get? j = some (s.phases.get ⟨j, hlt⟩) :=
    List.get?_eq_get hlt
  have hd := allDone_get? s j _ hall hget
  unfold doneAt
  rw [hget]
  cases hph : s.phases.get ⟨j, hlt⟩ <;> rw [hph] at hd <;>
    first | rfl | cases hd

theorem feed_entry_lt {T : Type} (cfg : PoolCfg T) (s : PState T)
    (hinv : PInv cfg s) (p : Nat × Outcome T) (hp : p ∈ s.feed) :
    p.1 < cfg.size := by
  obtain ⟨inv, hj⟩ := hinv.2.1 p.1 p.2 hp
  have := get?_some_lt _ _ _ hj
  rwa [hinv.1] at this

theorem feed_entry_outcome {T : Type} (cfg : PoolCfg T) (s : PState T)
    (hinv : PInv cfg s) (p : Nat × Outcome T) (hp : p ∈ s.feed) :
    p.2 = outcomeAt cfg s p.1 := by
  obtain ⟨inv, hj⟩ := hinv.2.1 p.1 p.2 hp
  unfold outcomeAt
  rw [hj]

theorem feed_covers {T : Type} (cfg : PoolCfg T) (s : PState T)
    (hinv : PInv cfg s) (hall : allDone s = true) (j : Nat)
    (hlt : j < cfg.size) : j ∈ s.feed.map Prod.fst := by
  have hlt' : j < s.phases.length := by rw [hinv.1]; exact hlt
  have hd := allDone_doneAt s j hall hlt'
  have hcount := hinv.2.2.1 j
  rw [hd] at hcount
  unfold idxCount at hcount
  by_contra hmem
  rw [List.count_eq_zero.mpr hmem] at hcount
  simp at hcount

/-- After every worker has published, rebuilding the `size`-slot buffer
from the feed yields exactly the final outcomes in submission-index
order, independently of the publication (completion) order. -/
theorem collect_ordered {T : Type} (cfg : PoolCfg T) (s : PState T)
    (hinv : PInv cfg s) (hall : allDone s = true) :
    s.feed.foldl (fun acc ir => acc.set ir.1 ir.2)
        (List.replicate cfg.size ⟨cfg.zero, none⟩) =
      (List.range cfg.size).map (fun i => outcomeAt cfg s i) := by
  apply List.ext
  intro j
  have hbase : (List.replicate cfg.size
      (Outcome.mk (T := T) cfg.zero none)).length = cfg.size := by simp
  have hcond : ∀ p, p ∈ s.feed → p.1 < (List.replicate cfg.size
      (Outcome.mk (T := T) cfg.zero none)).length ∧
      p.2 = outcomeAt cfg s p.1 := by
    intro p hp
    exact ⟨by rw [hbase]; exact feed_entry_lt cfg s hinv p hp,
           feed_entry_outcome cfg s hinv p hp⟩
  rw [foldl_set_get? (fun i => outcomeAt cfg s i) s.feed _ j hcond]
  by_cases hlt : j < cfg.size
  · rw [if_pos (feed_covers cfg s hinv hall j hlt)]
    rw [List.get?_map, List.get?_range hlt]
    rfl
  · have hnm : j ∉ s.feed.map Prod.fst := by
      intro hmem
      obtain ⟨p, hp, hpj⟩ := List.mem_map.mp hmem
      exact hlt (hpj ▸ feed_entry_lt cfg s hinv p hp)
    rw [if_neg hnm]
    have h1 : (List.replicate cfg.size
        (Outcome.mk (T := T) cfg.zero none)).get? j = none :=
      List.get?_eq_none.mpr (by rw [hbase]; omega)
    have h2 : ((List.range cfg.size).map
        (fun i => outcomeAt cfg s i)).get? j = none :=
      List.get?_eq_none.mpr (by simp; omega)
    rw [h1, h2]

/-- Splitting a buffer into non-error values and errors preserves the
total count. -/
theorem filterMap_split_length {T : Type} (l : List (Outcome T)) :
    (l.filterMap (fun o => if o.err.isSome then none else some o.val)).length
      + (l.filterMap (fun o => o.err)).length = l.length := by
  induction l with
  | nil => rfl
  | cons o rest ih =>
      cases herr : o.err with
      | none => simp [List.filterMap_cons, herr]; omega
      | some e => simp [List.filterMap_cons, herr]; omega

/-- In a completed execution the feed indices are a permutation of
`0 … size-1`: every task contributed exactly one outcome. -/
theorem feed_fst_perm {T : Type} (cfg : PoolCfg T) (s : PState T)
    (hinv : PInv cfg s) (hall : allDone s = true) :
    (s.feed.map Prod.fst).Perm (List.range cfg.size) := by
  apply List.perm_iff_count.mpr
  intro a
  have hcount := hinv.2.2.1 a
  by_cases hlt : a < cfg.size
  · have hlt' : a < s.phases.length := by rw [hinv.1]; exact hlt
    have hd := allDone_doneAt s a hall hlt'
    rw [hd] at hcount
    unfold idxCount at hcount
    have hrange : (List.range cfg.size).count a = 1 :=
      List.count_eq_one_of_mem (List.nodup_range _)
        (List.mem_range.mpr hlt)
    rw [hrange]
    simpa using hcount
  · have hnone : s.phases.get? a = none :=
      List.get?_eq_none.mpr (by rw [hinv.1]; omega)
    have hd : doneAt s a = false := by
      unfold doneAt
      rw [hnone]
    rw [hd] at hcount
    unfold idxCount at hcount
    have hrange : (List.range cfg.size).count a = 0 :=
      List.count_eq_zero.mpr (by intro hmem; exact hlt (List.mem_range.mp hmem))
    rw [hrange]
    simpa using hcount

theorem spInv_init {T : Type} (cfg : SPCfg T) : SPInv cfg (spInit (T := T)) := by
  refine ⟨?_, ?_, ?_, ?_, ?_, ?_, ?_, ?_, ?_, ?_, ?_⟩ <;>
    simp [spInit, allDoneW]

theorem countP_set_of_get? {A : Type} (q : A → Bool) :
    ∀ (l : List A) (k : Nat) (x y : A), l.get? k = some x →
    (l.set k y).countP q + (if q x then 1 else 0) =
      l.countP q + (if q y then 1 else 0) := by
  intro l
  induction l with
  | nil => intro k x y h; cases h
  | cons a rest ih =>
      intro k x y h
      cases k with
      | zero =>
          have hx : a = x := by simpa using h
          subst hx
          show ((y :: rest).countP q) + _ = _
          rw [List.countP_cons, List.countP_cons]
          omega
      | succ k2 =>
          have h2 : rest.get? k2 = some x := by simpa using h
          show ((a :: rest.set k2 y).countP q) + _ = _
          rw [List.countP_cons, List.countP_cons]
          have := ih k2 x y h2
          omega

theorem map_fst_set {A B : Type} (l : List (A × B)) (k : Nat) (a : A)
    (b b2 : B) (h : l.get? k = some (a, b)) :
    (l.set k (a, b2)).map Prod.fst = l.map Prod.fst := by
  apply List.ext
  intro j
  rw [List.get?_map, List.get?_map]
  by_cases hkj : k = j
  · subst hkj
    rw [h, get?_set_cases _ _ _ _ (get?_some_lt _ _ _ h), if_pos rfl]
    rfl
  · rw [get?_set_cases _ _ _ _ (get?_some_lt _ _ _ h), if_neg hkj]

theorem sworkStep_allDone {T : Type} (cfg : SPCfg T) (s : SPState T)
    (k : Nat) (h : allDoneW s = true) : sworkStep cfg s k = s := by
  unfold sworkStep
  cases hk : s.workers.get? k with
  | none => rfl
  | some p =>
      obtain ⟨tid, ph⟩ := p
      have hd := List.all_eq_true.mp h _ (List.get?_mem hk)
      cases ph <;> first | rfl | cases hd

theorem spstep_inv {T : Type} (cfg : SPCfg T) (s : SPState T) (e : SPEv)
    (h : SPInv cfg s) : SPInv cfg (spstep cfg s e) := by
  obtain ⟨h1, h2, h3, h4, h5, h6, h7, h8, h9, h10, h11⟩ := h
  cases e with
  | submitPark tid =>
      by_cases hg : s.doneClosed = false ∧ s.dphase ≠ DPhase.mainParked
      · simp only [spstep, if_pos hg]
        refine ⟨h1, ?_, h3, h4, h5, h6, h7, h8, h9, h10, h11⟩
        intro hdc
        rw [hg.1] at hdc
        cases hdc
      · simp only [spstep, if_neg hg]
        exact ⟨h1, h2, h3, h4, h5, h6, h7, h8, h9, h10, h11⟩
  | submitPairParked tid =>
      by_cases hg : s.dphase = DPhase.mainParked
      · simp only [spstep, if_pos hg, spAccept]
        refine ⟨?_, h2, ?_, ?_, ?_, ?_, ?_, ?_, h9, h10, ?_⟩
        · intro hx
          cases hx
        · intro hrc
          have := h3 hrc
          rw [hg] at this
          cases this
        · intro hrc
          have := h3 hrc
          rw [hg] at this
          cases this
        · intro t ht
          rcases List.mem_append.mp ht with hold | hnew
          · exact h5 t hold
          · cases List.mem_singleton.mp hnew
        · intro t ht
          rcases List.mem_append.mp ht with hold | hnew
          · rw [List.map_append]
            exact List.mem_append.mpr (Or.inl (h6 t hold))
          · have hp := List.mem_singleton.mp hnew
            have ht2 : t = tid := congrArg Prod.fst hp
            subst ht2
            rw [List.map_append]
            exact List.mem_append.mpr (Or.inr (by simp))
        · show s.results.length =
            (s.workers ++ [(tid, WPhase.idle (T := T))]).countP _
          rw [List.countP_append]
          have : ([(tid, WPhase.idle (T := T))].countP
              (fun p => isDonePh p.2)) = 0 := by
            simp [List.countP_cons, isDonePh]
          rw [this, h7]
          omega
        · intro p hp
          rcases List.mem_append.mp hp with hold | hnew
          · exact h8 p hold
          · have := List.mem_singleton.mp hnew
            subst this
            trivial
        · intro hff q hq o2 inv2 heq herr
          rcases List.mem_append.mp hq with hold | hnew
          · exact h11 hff q hold o2 inv2 heq herr
          · have := List.mem_singleton.mp hnew
            subst this
            cases heq
      · simp only [spstep, if_neg hg]
        exact ⟨h1, h2, h3, h4, h5, h6, h7, h8, h9, h10, h11⟩
  | submitSeeClosed tid =>
      by_cases hg : s.doneClosed = true
      · simp only [spstep, if_pos hg]
        refine ⟨h1, h2, h3, h4, ?_, ?_, h7, h8, h9, h10, h11⟩
        · intro t ht
          rcases List.mem_append.mp ht with hold | hnew
          · exact h5 t hold
          · exact hg
        · intro t ht
          rcases List.mem_append.mp ht with hold | hnew
          · exact h6 t hold
          · cases List.mem_singleton.mp hnew
      · simp only [spstep, if_neg hg]
        exact ⟨h1, h2, h3, h4, h5, h6, h7, h8, h9, h10, h11⟩
  | closeCall =>
      simp only [spstep]
      refine ⟨?_, fun _ => rfl, ?_, h4, ?_, ?_, h7, h8, h9, h10, h11⟩
      · intro hx
        by_cases hmp : s.dphase = DPhase.mainParked
        · rw [if_pos hmp] at hx
          cases hx
        · rw [if_neg hmp] at hx
          exact absurd hx hmp
      · intro hrc
        have := h3 hrc
        rw [this]
        have : DPhase.finished ≠ DPhase.mainParked := by
          intro hc
          cases hc
        rw [if_neg this]
      · intro t _
        rfl
      · intro t ht
        rcases List.mem_append.mp ht with hold | hnew
        · exact h6 t hold
        · obtain ⟨x, _, hx2⟩ := List.mem_map.mp hnew
          cases hx2
  | cancelCall =>
      exact ⟨h1, h2, h3, h4, h5, h6, h7, h8, h9,
             fun _ _ _ _ => rfl, fun _ _ _ _ _ _ _ => rfl⟩
  | dAcceptParked =>
      by_cases hg : s.dphase = DPhase.mainPoll
      · simp only [spstep, if_pos hg]
        cases hp : s.parked with
        | nil => exact ⟨h1, h2, h3, h4, h5, h6, h7, h8, h9, h10, h11⟩
        | cons tid rest =>
            simp only [spAccept]
            refine ⟨?_, ?_, h3, ?_, ?_, ?_, ?_, ?_, h9, h10, ?_⟩
            · intro hx
              rw [hg] at hx
              cases hx
            · intro hdc
              have := h2 hdc
              rw [hp] at this
              cases this
            · intro hrc
              have := h3 hrc
              rw [hg] at this
              cases this
            · intro t ht
              rcases List.mem_append.mp ht with hold | hnew
              · exact h5 t hold
              · cases List.mem_singleton.mp hnew
            · intro t ht
              rcases List.mem_append.mp ht with hold | hnew
              · rw [List.map_append]
                exact List.mem_append.mpr (Or.inl (h6 t hold))
              · have hq := List.mem_singleton.mp hnew
                have ht2 : t = tid := congrArg Prod.fst hq
                subst ht2
                rw [List.map_append]
                exact List.mem_append.mpr (Or.inr (by simp))
            · show s.results.length =
                (s.workers ++ [(tid, WPhase.idle (T := T))]).countP _
              rw [List.countP_append]
              have : ([(tid, WPhase.idle (T := T))].countP
                  (fun p => isDonePh p.2)) = 0 := by
                simp [List.countP_cons, isDonePh]
              rw [this, h7]
              omega
            · intro p hpm
              rcases List.mem_append.mp hpm with hold | hnew
              · exact h8 p hold
              · have := List.mem_singleton.mp hnew
                subst this
                trivial
            · intro hff q hq o2 inv2 heq herr
              rcases List.mem_append.mp hq with hold | hnew
              · exact h11 hff q hold o2 inv2 heq herr
              · have := List.mem_singleton.mp hnew
                subst this
                cases heq
      · simp only [spstep, if_neg hg]
        exact ⟨h1, h2, h3, h4, h5, h6, h7, h8, h9, h10, h11⟩
  | dSeeDone =>
      by_cases hg : s.dphase = DPhase.mainPoll ∧ s.doneClosed = true
      · simp only [spstep, if_pos hg]
        refine ⟨?_, h2, ?_, h4, h5, h6, h7, h8, h9, h10, h11⟩
        · intro hx
          cases hx
        · intro hrc
          have := h3 hrc
          rw [hg.1] at this
          cases this
      · simp only [spstep, if_neg hg]
        exact ⟨h1, h2, h3, h4, h5, h6, h7, h8, h9, h10, h11⟩
  | dPark =>
      by_cases hg : s.dphase = DPhase.mainPoll ∧ s.parked = [] ∧
          s.doneClosed = false
      · simp only [spstep, if_pos hg]
        refine ⟨fun _ => hg.2.2, h2, ?_, h4, h5, h6, h7, h8, h9, h10, h11⟩
        intro hrc
        have := h3 hrc
        rw [hg.1] at this
        cases this
      · simp only [spstep, if_neg hg]
        exact ⟨h1, h2, h3, h4, h5, h6, h7, h8, h9, h10, h11⟩
  | dDrainAccept =>
      by_cases hg : s.dphase = DPhase.draining
      · simp only [spstep, if_pos hg]
        cases hp : s.parked with
        | nil => exact ⟨h1, h2, h3, h4, h5, h6, h7, h8, h9, h10, h11⟩
        | cons tid rest =>
            simp only [spAccept]
            refine ⟨?_, ?_, ?_, ?_, ?_, ?_, ?_, ?_, h9, h10, ?_⟩
            · intro hx
              rw [hg] at hx
              cases hx
            · intro hdc
              have := h2 hdc
              rw [hp] at this
              cases this
            · intro hrc
              have := h3 hrc
              rw [hg] at this
              cases this
            · intro hrc
              have := h3 hrc
              rw [hg] at this
              cases this
            · intro t ht
              rcases List.mem_append.mp ht with hold | hnew
              · exact h5 t hold
              · cases List.mem_singleton.mp hnew
            · intro t ht
              rcases List.mem_append.mp ht with hold | hnew
              · rw [List.map_append]
                exact List.mem_append.mpr (Or.inl (h6 t hold))
              · have hq := List.mem_singleton.mp hnew
                have ht2 : t = tid := congrArg Prod.fst hq
                subst ht2
                rw [List.map_append]
                exact List.mem_append.mpr (Or.inr (by simp))
            · show s.results.length =
                (s.workers ++ [(tid, WPhase.idle (T := T))]).countP _
              rw [List.countP_append]
              have : ([(tid, WPhase.idle (T := T))].countP
                  (fun p => isDonePh p.2)) = 0 := by
                simp [List.countP_cons, isDonePh]
              rw [this, h7]
              omega
            · intro p hpm
              rcases List.mem_append.mp hpm with hold | hnew
              · exact h8 p hold
              · have := List.mem_singleton.mp hnew
                subst this
                trivial
            · intro hff q hq o2 inv2 heq herr
              rcases List.mem_append.mp hq with hold | hnew
              · exact h11 hff q hold o2 inv2 heq herr
              · have := List.mem_singleton.mp hnew
                subst this
                cases heq
      · simp only [spstep, if_neg hg]
        exact ⟨h1, h2, h3, h4, h5, h6, h7, h8, h9, h10, h11⟩
  | dDrainDefault =>
      by_cases hg : s.dphase = DPhase.draining ∧ s.parked = []
      · simp only [spstep, if_pos hg]
        refine ⟨?_, h2, ?_, h4, h5, h6, h7, h8, h9, h10, h11⟩
        · intro hx
          cases hx
        · intro hrc
          have := h3 hrc
          rw [hg.1] at this
          cases this
      · simp only [spstep, if_neg hg]
        exact ⟨h1, h2, h3, h4, h5, h6, h7, h8, h9, h10, h11⟩
  | dCloseResults =>
      by_cases hg : s.dphase = DPhase.waiting ∧ allDoneW s = true
      · simp only [spstep, if_pos hg]
        refine ⟨?_, h2, fun _ => rfl, fun _ => hg.2, h5, h6, h7, h8, h9, h10, h11⟩
        intro hx
        cases hx
      · simp only [spstep, if_neg hg]
        exact ⟨h1, h2, h3, h4, h5, h6, h7, h8, h9, h10, h11⟩
  | wstep k =>
      show SPInv cfg (sworkStep cfg s k)
      by_cases hrc : s.resultsClosed = true
      · rw [sworkStep_allDone cfg s k (h4 hrc)]
        exact ⟨h1, h2, h3, h4, h5, h6, h7, h8, h9, h10, h11⟩
      · unfold sworkStep
        cases hk : s.workers.get? k with
        | none => exact ⟨h1, h2, h3, h4, h5, h6, h7, h8, h9, h10, h11⟩
        | some p =>
        obtain ⟨tid, ph⟩ := p
        have hOK := h8 _ (List.get?_mem hk)
        have hmapfst : ∀ ph2 : WPhase T,
            (s.workers.set k (tid, ph2)).map Prod.fst =
              s.workers.map Prod.fst :=
          fun ph2 => map_fst_set _ _ _ _ _ hk
        have hcountP : ∀ ph2 : WPhase T,
            (s.workers.set k (tid, ph2)).countP (fun p => isDonePh p.2) +
              (if isDonePh ph then 1 else 0) =
            s.workers.countP (fun p => isDonePh p.2) +
              (if isDonePh ph2 then 1 else 0) :=
          fun ph2 => countP_set_of_get? _ _ _ _ _ hk
        cases ph with
        | idle =>
            show SPInv cfg (if s.cancelled = true then
                { s with workers := s.workers.set k (tid, WPhase.toCancel (scancelOut cfg) false) }
              else { s with workers := s.workers.set k (tid, WPhase.running) })
            by_cases hc : s.cancelled = true
            · rw [if_pos hc]
              refine ⟨h1, h2, fun hx => absurd hx hrc,
                      fun hx => absurd hx hrc, h5, ?_, ?_, ?_, h9, h10, ?_⟩
              · intro t ht
                rw [hmapfst]
                exact h6 t ht
              · have hthis := hcountP (WPhase.toCancel (scancelOut cfg) false)
                have e1 : (if isDonePh (WPhase.idle (T := T)) = true then 1 else 0) = 0 := rfl
                have e2 : (if isDonePh (WPhase.toCancel (scancelOut cfg) false) = true then 1 else 0) = 0 := rfl
                rw [e1, e2] at hthis
                show s.results.length =
                  List.countP (fun p => isDonePh p.2)
                    (s.workers.set k (tid, WPhase.toCancel (scancelOut cfg) false))
                omega
              · intro q hq
                rcases List.mem_or_eq_of_mem_set hq with hold | hnew
                · exact h8 q hold
                · subst hnew
                  exact Or.inr ⟨rfl, rfl⟩
              · intro hff q hq o2 inv2 heq herr
                rcases List.mem_or_eq_of_mem_set hq with hold | hnew
                · exact h11 hff q hold o2 inv2 heq herr
                · subst hnew
                  cases heq
            · rw [if_neg hc]
              refine ⟨h1, h2, fun hx => absurd hx hrc,
                      fun hx => absurd hx hrc, h5, ?_, ?_, ?_, h9, h10, ?_⟩
              · intro t ht
                rw [hmapfst]
                exact h6 t ht
              · have hthis := hcountP (WPhase.running (T := T))
                have e1 : (if isDonePh (WPhase.idle (T := T)) = true then 1 else 0) = 0 := rfl
                have e2 : (if isDonePh (WPhase.running (T := T)) = true then 1 else 0) = 0 := rfl
                rw [e1, e2] at hthis
                show s.results.length =
                  List.countP (fun p => isDonePh p.2)
                    (s.workers.set k (tid, WPhase.running (T := T)))
                omega
              · intro q hq
                rcases List.mem_or_eq_of_mem_set hq with hold | hnew
                · exact h8 q hold
                · subst hnew
                  trivial
              · intro hff q hq o2 inv2 heq herr
                rcases List.mem_or_eq_of_mem_set hq with hold | hnew
                · exact h11 hff q hold o2 inv2 heq herr
                · subst hnew
                  cases heq
        | running =>
            refine ⟨h1, h2, fun hx => absurd hx hrc,
                    fun hx => absurd hx hrc, h5, ?_, ?_, ?_, h9, h10, ?_⟩
            · intro t ht
              rw [hmapfst]
              exact h6 t ht
            · have hthis := hcountP (WPhase.toCancel (staskOut cfg tid) true)
              have e1 : (if isDonePh (WPhase.running (T := T)) = true then 1 else 0) = 0 := rfl
              have e2 : (if isDonePh (WPhase.toCancel (staskOut cfg tid) true) = true then 1 else 0) = 0 := rfl
              rw [e1, e2] at hthis
              show s.results.length =
                List.countP (fun p => isDonePh p.2)
                  (s.workers.set k (tid, WPhase.toCancel (staskOut cfg tid) true))
              omega
            · intro q hq
              rcases List.mem_or_eq_of_mem_set hq with hold | hnew
              · exact h8 q hold
              · subst hnew
                exact Or.inl ⟨rfl, rfl⟩
            · intro hff q hq o2 inv2 heq herr
              rcases List.mem_or_eq_of_mem_set hq with hold | hnew
              · exact h11 hff q hold o2 inv2 heq herr
              · subst hnew
                cases heq
        | toCancel o inv =>
            refine ⟨h1, h2, fun hx => absurd hx hrc,
                    fun hx => absurd hx hrc, h5, ?_, ?_, ?_, h9, ?_, ?_⟩
            · intro t ht
              rw [hmapfst]
              exact h6 t ht
            · have hthis := hcountP (WPhase.toPublish o inv)
              have e1 : (if isDonePh (WPhase.toCancel o inv) = true then 1 else 0) = 0 := rfl
              have e2 : (if isDonePh (WPhase.toPublish o inv) = true then 1 else 0) = 0 := rfl
              rw [e1, e2] at hthis
              show s.results.length =
                List.countP (fun p => isDonePh p.2)
                  (s.workers.set k (tid, WPhase.toPublish o inv))
              omega
            · intro q hq
              rcases List.mem_or_eq_of_mem_set hq with hold | hnew
              · exact h8 q hold
              · subst hnew
                exact hOK
            · intro hff o2 ho2 herr
              have := h10 hff o2 ho2 herr
              simp [this]
            · intro hff q hq o2 inv2 heq herr
              rcases List.mem_or_eq_of_mem_set hq with hold | hnew
              · have := h11 hff q hold o2 inv2 heq herr
                simp [this]
              · subst hnew
                cases heq
                simp [hff, herr]
        | toPublish o inv =>
            refine ⟨h1, h2, fun hx => absurd hx hrc,
                    fun hx => absurd hx hrc, h5, ?_, ?_, ?_, ?_, ?_, ?_⟩
            · intro t ht
              rw [hmapfst]
              exact h6 t ht
            · have hthis := hcountP (WPhase.done o inv)
              have e1 : (if isDonePh (WPhase.toPublish o inv) = true then 1 else 0) = 0 := rfl
              have e2 : (if isDonePh (WPhase.done o inv) = true then 1 else 0) = 1 := rfl
              rw [e1, e2] at hthis
              show (s.results ++ [o]).length =
                List.countP (fun p => isDonePh p.2)
                  (s.workers.set k (tid, WPhase.done o inv))
              rw [List.length_append]
              simp only [List.length_singleton]
              omega
            · intro q hq
              rcases List.mem_or_eq_of_mem_set hq with hold | hnew
              · exact h8 q hold
              · subst hnew
                exact hOK
            · intro o2 ho2
              rcases List.mem_append.mp ho2 with hold | hnew
              · exact h9 o2 hold
              · have := List.mem_singleton.mp hnew
                subst this
                rcases hOK with ⟨_, ho⟩ | ⟨_, ho⟩
                · exact Or.inl ⟨tid, ho⟩
                · exact Or.inr ho
            · intro hff o2 ho2 herr
              rcases List.mem_append.mp ho2 with hold | hnew
              · exact h10 hff o2 hold herr
              · have heo : o2 = o := List.mem_singleton.mp hnew
                exact h11 hff (tid, WPhase.toPublish o inv)
                  (List.get?_mem hk) o inv rfl (heo ▸ herr)
            · intro hff q hq o2 inv2 heq herr
              rcases List.mem_or_eq_of_mem_set hq with hold | hnew
              · exact h11 hff q hold o2 inv2 heq herr
              · subst hnew
                cases heq
        | done o inv =>
            exact ⟨h1, h2, h3, h4, h5, h6, h7, h8, h9, h10, h11⟩

theorem spRun_inv {T : Type} (cfg : SPCfg T) (evs : List SPEv) :
    SPInv cfg (spRun cfg evs) := by
  have haux : ∀ (evs : List SPEv) (s : SPState T),
      SPInv cfg s → SPInv cfg (evs.foldl (spstep cfg) s) := by
    intro evs
    induction evs with
    | nil => intro s hs; exact hs
    | cons e rest ih =>
        intro s hs
        exact ih (spstep cfg s e) (spstep_inv cfg s e hs)
  exact haux evs spInit (spInv_init cfg)

/-! ### Streaming pool: consequences of the invariant -/

theorem sworkStep_workers {T : Type} (cfg : SPCfg T) (s : SPState T)
    (k tid : Nat) (ph ph2 : WPhase T) (hk : s.workers.get? k = some (tid, ph))
    (hw : (sworkStep cfg s k).workers = s.workers.set k (tid, ph2)) :
    (sworkStep cfg s k).workers.map Prod.fst = s.workers.map Prod.fst := by
  rw [hw]
  exact map_fst_set _ _ _ _ _ hk

theorem sworkStep_map_fst {T : Type} (cfg : SPCfg T) (s : SPState T)
    (k : Nat) :
    (sworkStep cfg s k).workers.map Prod.fst = s.workers.map Prod.fst := by
  cases hk : s.workers.get? k with
  | none =>
      have : sworkStep cfg s k = s := by
        unfold sworkStep
        rw [hk]
      rw [this]
  | some p =>
      obtain ⟨tid, ph⟩ := p
      cases ph with
      | idle =>
          by_cases hc : s.cancelled = true
          · refine sworkStep_workers cfg s k tid _
              (WPhase.toCancel (scancelOut cfg) false) hk ?_
            unfold sworkStep
            rw [hk]
            simp [hc]
          · refine sworkStep_workers cfg s k tid _ WPhase.running hk ?_
            unfold sworkStep
            rw [hk]
            simp [hc]
      | running =>
          refine sworkStep_workers cfg s k tid _
            (WPhase.toCancel (staskOut cfg tid) true) hk ?_
          unfold sworkStep
          rw [hk]
      | toCancel o inv =>
          refine sworkStep_workers cfg s k tid _ (WPhase.toPublish o inv) hk ?_
          unfold sworkStep
          rw [hk]
      | toPublish o inv =>
          refine sworkStep_workers cfg s k tid _ (WPhase.done o inv) hk ?_
          unfold sworkStep
          rw [hk]
      | done o inv =>
          have : sworkStep cfg s k = s := by
            unfold sworkStep
            rw [hk]
          rw [this]

/-- Once the pool is closed, no event can dispatch a new task: the list
of dispatched task ids never changes again. -/
theorem spstep_workers_frozen {T : Type} (cfg : SPCfg T) (s : SPState T)
    (e : SPEv) (hdc : s.doneClosed = true) (hinv : SPInv cfg s) :
    (spstep cfg s e).workers.map Prod.fst = s.workers.map Prod.fst := by
  obtain ⟨h1, h2, _, _, _, _, _, _, _⟩ := hinv
  cases e with
  | submitPark tid =>
      have : ¬(s.doneClosed = false ∧ s.dphase ≠ DPhase.mainParked) := by
        intro hx
        rw [hdc] at hx
        cases hx.1
      simp only [spstep, if_neg this]
  | submitPairParked tid =>
      have : ¬(s.dphase = DPhase.mainParked) := by
        intro hx
        rw [h1 hx] at hdc
        cases hdc
      simp only [spstep, if_neg this]
  | submitSeeClosed tid =>
      by_cases hg : s.doneClosed = true
      · simp only [spstep, if_pos hg]
      · simp only [spstep, if_neg hg]
  | closeCall => rfl
  | cancelCall => rfl
  | dAcceptParked =>
      by_cases hg : s.dphase = DPhase.mainPoll
      · simp only [spstep, if_pos hg, h2 hdc]
      · simp only [spstep, if_neg hg]
  | dSeeDone =>
      by_cases hg : s.dphase = DPhase.mainPoll ∧ s.doneClosed = true
      · simp only [spstep, if_pos hg]
      · simp only [spstep, if_neg hg]
  | dPark =>
      by_cases hg : s.dphase = DPhase.mainPoll ∧ s.parked = [] ∧
          s.doneClosed = false
      · simp only [spstep, if_pos hg]
      · simp only [spstep, if_neg hg]
  | dDrainAccept =>
      by_cases hg : s.dphase = DPhase.draining
      · simp only [spstep, if_pos hg, h2 hdc]
      · simp only [spstep, if_neg hg]
  | dDrainDefault =>
      by_cases hg : s.dphase = DPhase.draining ∧ s.parked = []
      · simp only [spstep, if_pos hg]
      · simp only [spstep, if_neg hg]
  | dCloseResults =>
      by_cases hg : s.dphase = DPhase.waiting ∧ allDoneW s = true
      · simp only [spstep, if_pos hg]
      · simp only [spstep, if_neg hg]
  | wstep k => exact sworkStep_map_fst cfg s k

/-- A second `Close()` is a no-op (`closeOnce`): on an already-closed
pool the close event does not change the state at all. -/
theorem spstep_close_id {T : Type} (cfg : SPCfg T) (s : SPState T)
    (hdc : s.doneClosed = true) (hinv : SPInv cfg s) :
    spstep cfg s .closeCall = s := by
  have hp := hinv.2.1 hdc
  have hmp : s.dphase ≠ DPhase.mainParked := by
    intro hx
    rw [hinv.1 hx] at hdc
    cases hdc
  obtain ⟨dc, cc, pk, dp, wk, rs, rc, sr⟩ := s
  simp only at hdc hp hmp
  subst hdc
  subst hp
  simp [spstep, if_neg hmp]

/-- Pre-execution check of a streaming worker on a cancelled pool:
cancellation outcome, task body skipped. -/
theorem sworkStep_idle_cancelled {T : Type} (cfg : SPCfg T) (s : SPState T)
    (k tid : Nat) (hc : s.cancelled = true)
    (hk : s.workers.get? k = some (tid, .idle)) :
    (sworkStep cfg s k).workers.get? k =
      some (tid, .toCancel (scancelOut cfg) false) := by
  have hlt := get?_some_lt _ _ _ hk
  have hw : (sworkStep cfg s k).workers =
      s.workers.set k (tid, WPhase.toCancel (scancelOut cfg) false) := by
    unfold sworkStep
    rw [hk]
    simp [hc]
  rw [hw, get?_set_cases _ _ _ _ hlt, if_pos rfl]

/-- Pre-execution check of a streaming worker on a live pool: the
worker proceeds to invoke its task. -/
theorem sworkStep_idle_live {T : Type} (cfg : SPCfg T) (s : SPState T)
    (k tid : Nat) (hc : s.cancelled = false)
    (hk : s.workers.get? k = some (tid, .idle)) :
    (sworkStep cfg s k).workers.get? k = some (tid, .running) := by
  have hlt := get?_some_lt _ _ _ hk
  have hw : (sworkStep cfg s k).workers =
      s.workers.set k (tid, WPhase.running) := by
    unfold sworkStep
    rw [hk]
    simp [hc]
  rw [hw, get?_set_cases _ _ _ _ hlt, if_pos rfl]

theorem countP_eq_length_of_allDone {T : Type} (s : SPState T)
    (h : allDoneW s = true) :
    s.workers.countP (fun p => isDonePh p.2) = s.workers.length := by
  apply List.countP_eq_length.mpr
  intro p hp
  exact List.all_eq_true.mp h p hp

theorem spstep_cancelled_mono {T : Type} (cfg : SPCfg T) (s : SPState T)
    (e : SPEv) (h : s.cancelled = true) :
    (spstep cfg s e).cancelled = true := by
  cases e with
  | submitPark tid =>
      by_cases hg : s.doneClosed = false ∧ s.dphase ≠ DPhase.mainParked <;>
        simp [spstep, hg, h]
  | submitPairParked tid =>
      by_cases hg : s.dphase = DPhase.mainParked <;>
        simp [spstep, hg, spAccept, h]
  | submitSeeClosed tid =>
      by_cases hg : s.doneClosed = true <;> simp [spstep, hg, h]
  | closeCall => exact h
  | cancelCall => rfl
  | dAcceptParked =>
      by_cases hg : s.dphase = DPhase.mainPoll
      · cases hp : s.parked <;> simp [spstep, hg, hp, spAccept, h]
      · simp [spstep, hg, h]
  | dSeeDone =>
      by_cases hg : s.dphase = DPhase.mainPoll ∧ s.doneClosed = true <;>
        simp [spstep, hg, h]
  | dPark =>
      by_cases hg : s.dphase = DPhase.mainPoll ∧ s.parked = [] ∧
          s.doneClosed = false <;> simp [spstep, hg, h]
  | dDrainAccept =>
      by_cases hg : s.dphase = DPhase.draining
      · cases hp : s.parked <;> simp [spstep, hg, hp, spAccept, h]
      · simp [spstep, hg, h]
  | dDrainDefault =>
      by_cases hg : s.dphase = DPhase.draining ∧ s.parked = [] <;>
        simp [spstep, hg, h]
  | dCloseResults =>
      by_cases hg : s.dphase = DPhase.waiting ∧ allDoneW s = true <;>
        simp [spstep, hg, h]
  | wstep k =>
      show (sworkStep cfg s k).cancelled = true
      cases hk : s.workers.get? k with
      | none =>
          have : sworkStep cfg s k = s := by
            unfold sworkStep
            rw [hk]
          rw [this]
          exact h
      | some p =>
          obtain ⟨tid, ph⟩ := p
          cases ph <;>
            · unfold sworkStep
              rw [hk]
              simp [h]

theorem sworkStep_get?_other {T : Type} (cfg : SPCfg T) (s : SPState T)
    (k k2 : Nat) (hne : k2 ≠ k) :
    (sworkStep cfg s k2).workers.get? k = s.workers.get? k := by
  cases hk : s.workers.get? k2 with
  | none =>
      have : sworkStep cfg s k2 = s := by
        unfold sworkStep
        rw [hk]
      rw [this]
  | some p =>
      obtain ⟨tid, ph⟩ := p
      cases ph <;>
        first
          | (have : sworkStep cfg s k2 = s := by
              unfold sworkStep
              rw [hk]
             rw [this])
          | (by_cases hc : s.cancelled = true <;>
              · have hred := congrArg SPState.workers
                  (show sworkStep cfg s k2 = sworkStep cfg s k2 from rfl)
                unfold sworkStep
                rw [hk]
                simp [hc, List.get?_eq_getElem?, List.getElem?_set_ne hne])

/-- Any event other than a micro-step of worker `k` leaves worker `k`'s
entry unchanged (newly accepted workers are appended after it). -/
theorem spstep_get?_preserved {T : Type} (cfg : SPCfg T) (s : SPState T)
    (e : SPEv) (k : Nat) (tid : Nat) (ph : WPhase T)
    (hk : s.workers.get? k = some (tid, ph))
    (hne : ∀ k2, e = SPEv.wstep k2 → k2 ≠ k) :
    (spstep cfg s e).workers.get? k = some (tid, ph) := by
  have hlt := get?_some_lt _ _ _ hk
  have happ : ∀ (x : Nat × WPhase T),
      (s.workers ++ [x]).get? k = some (tid, ph) := by
    intro x
    rw [List.get?_append hlt]
    exact hk
  cases e with
  | submitPark tid2 =>
      by_cases hg : s.doneClosed = false ∧ s.dphase ≠ DPhase.mainParked <;>
        simp [spstep, hg, ← List.get?_eq_getElem?, hk]
  | submitPairParked tid2 =>
      by_cases hg : s.dphase = DPhase.mainParked
      · simp only [spstep, if_pos hg, spAccept]
        exact happ _
      · simp only [spstep, if_neg hg]
        exact hk
  | submitSeeClosed tid2 =>
      by_cases hg : s.doneClosed = true <;> simp [spstep, hg, ← List.get?_eq_getElem?, hk]
  | closeCall => exact hk
  | cancelCall => exact hk
  | dAcceptParked =>
      by_cases hg : s.dphase = DPhase.mainPoll
      · cases hp : s.parked with
        | nil => simp [spstep, hg, hp, ← List.get?_eq_getElem?, hk]
        | cons tid2 rest =>
            simp only [spstep, if_pos hg, hp, spAccept]
            exact happ _
      · simp only [spstep, if_neg hg]
        exact hk
  | dSeeDone =>
      by_cases hg : s.dphase = DPhase.mainPoll ∧ s.doneClosed = true <;>
        simp [spstep, hg, ← List.get?_eq_getElem?, hk]
  | dPark =>
      by_cases hg : s.dphase = DPhase.mainPoll ∧ s.parked = [] ∧
          s.doneClosed = false <;> simp [spstep, hg, ← List.get?_eq_getElem?, hk]
  | dDrainAccept =>
      by_cases hg : s.dphase = DPhase.draining
      · cases hp : s.parked with
        | nil => simp [spstep, hg, hp, ← List.get?_eq_getElem?, hk]
        | cons tid2 rest =>
            simp only [spstep, if_pos hg, hp, spAccept]
            exact happ _
      · simp only [spstep, if_neg hg]
        exact hk
  | dDrainDefault =>
      by_cases hg : s.dphase = DPhase.draining ∧ s.parked = [] <;>
        simp [spstep, hg, ← List.get?_eq_getElem?, hk]
  | dCloseResults =>
      by_cases hg : s.dphase = DPhase.waiting ∧ allDoneW s = true <;>
        simp [spstep, hg, ← List.get?_eq_getElem?, hk]
  | wstep k2 =>
      show (sworkStep cfg s k2).workers.get? k = _
      rw [sworkStep_get?_other cfg s k k2 (hne k2 rfl)]
      exact hk

/-- The task invocation step of a streaming worker. -/
theorem sworkStep_running {T : Type} (cfg : SPCfg T) (s : SPState T)
    (k tid : Nat) (hk : s.workers.get? k = some (tid, .running)) :
    (sworkStep cfg s k).workers.get? k =
      some (tid, .toCancel (staskOut cfg tid) true) := by
  have hlt := get?_some_lt _ _ _ hk
  have hw : (sworkStep cfg s k).workers =
      s.workers.set k (tid, .toCancel (staskOut cfg tid) true) := by
    unfold sworkStep
    rw [hk]
  rw [hw, get?_set_cases _ _ _ _ hlt, if_pos rfl]

theorem spstep_sDecided {T : Type} (cfg : SPCfg T) (s : SPState T)
    (e : SPEv) (k tid : Nat) (o : Outcome T) (inv : Bool)
    (h : sDecided s k tid o inv) :
    sDecided (spstep cfg s e) k tid o inv := by
  by_cases he : e = SPEv.wstep k
  · subst he
    show sDecided (sworkStep cfg s k) k tid o inv
    rcases h with h | h | h
    · have hw : (sworkStep cfg s k).workers =
          s.workers.set k (tid, .toPublish o inv) := by
        unfold sworkStep
        rw [h]
      unfold sDecided
      rw [hw, get?_set_cases _ _ _ _ (get?_some_lt _ _ _ h), if_pos rfl]
      simp
    · have hw : (sworkStep cfg s k).workers =
          s.workers.set k (tid, .done o inv) := by
        unfold sworkStep
        rw [h]
      unfold sDecided
      rw [hw, get?_set_cases _ _ _ _ (get?_some_lt _ _ _ h), if_pos rfl]
      simp
    · have hid : sworkStep cfg s k = s := by
        unfold sworkStep
        rw [h]
      rw [hid]
      exact Or.inr (Or.inr h)
  · have hne : ∀ k2, e = SPEv.wstep k2 → k2 ≠ k := by
      intro k2 hk2 hkk
      exact he (by rw [hk2, hkk])
    rcases h with h | h | h
    · exact Or.inl (spstep_get?_preserved cfg s e k tid _ h hne)
    · exact Or.inr (Or.inl (spstep_get?_preserved cfg s e k tid _ h hne))
    · exact Or.inr (Or.inr (spstep_get?_preserved cfg s e k tid _ h hne))

theorem sprun_sDecided {T : Type} (cfg : SPCfg T) (evs : List SPEv)
    (s : SPState T) (k tid : Nat) (o : Outcome T) (inv : Bool)
    (h : sDecided s k tid o inv) :
    sDecided (evs.foldl (spstep cfg) s) k tid o inv := by
  induction evs generalizing s with
  | nil => exact h
  | cons e rest ih => exact ih (spstep cfg s e) (spstep_sDecided cfg s e k tid o inv h)

theorem sDecided_allDoneW {T : Type} (s : SPState T) (k tid : Nat)
    (o : Outcome T) (inv : Bool) (hall : allDoneW s = true)
    (h : sDecided s k tid o inv) :
    s.workers.get? k = some (tid, .done o inv) := by
  rcases h with h | h | h
  · have := List.all_eq_true.mp hall _ (List.get?_mem h)
    cases this
  · have := List.all_eq_true.mp hall _ (List.get?_mem h)
    cases this
  · exact h

/-- A streaming worker that is still unchecked while the pool is
cancelled finishes with the cancellation outcome, task body never
invoked, in every completed execution. -/
theorem sp_idle_cancelled_final {T : Type} (cfg : SPCfg T)
    (evs : List SPEv) (s : SPState T) (k tid : Nat)
    (hc : s.cancelled = true) (hk : s.workers.get? k = some (tid, .idle))
    (hall : allDoneW (evs.foldl (spstep cfg) s) = true) :
    (evs.foldl (spstep cfg) s).workers.get? k =
      some (tid, .done (scancelOut cfg) false) := by
  induction evs generalizing s with
  | nil =>
      have := List.all_eq_true.mp hall _ (List.get?_mem hk)
      cases this
  | cons e rest ih =>
      show (rest.foldl (spstep cfg) (spstep cfg s e)).workers.get? k = _
      by_cases he : e = SPEv.wstep k
      · subst he
        have hstep := sworkStep_idle_cancelled cfg s k tid hc hk
        have hdec : sDecided (spstep cfg s (.wstep k)) k tid
            (scancelOut cfg) false := Or.inl hstep
        exact sDecided_allDoneW _ k tid _ _ hall
          (sprun_sDecided cfg rest _ k tid _ _ hdec)
      · have hne : ∀ k2, e = SPEv.wstep k2 → k2 ≠ k := by
          intro k2 hk2 hkk
          exact he (by rw [hk2, hkk])
        have h1 := spstep_get?_preserved cfg s e k tid _ hk hne
        exact ih (spstep cfg s e) (spstep_cancelled_mono cfg s e hc) h1 hall

/-- A streaming worker that has invoked its task finishes with that
task's value/error pair, in every completed execution. -/
theorem sp_running_final {T : Type} (cfg : SPCfg T)
    (evs : List SPEv) (s : SPState T) (k tid : Nat)
    (hk : s.workers.get? k = some (tid, .running))
    (hall : allDoneW (evs.foldl (spstep cfg) s) = true) :
    (evs.foldl (spstep cfg) s).workers.get? k =
      some (tid, .done (staskOut cfg tid) true) := by
  induction evs generalizing s with
  | nil =>
      have := List.all_eq_true.mp hall _ (List.get?_mem hk)
      cases this
  | cons e rest ih =>
      show (rest.foldl (spstep cfg) (spstep cfg s e)).workers.get? k = _
      by_cases he : e = SPEv.wstep k
      · subst he
        have hstep := sworkStep_running cfg s k tid hk
        have hdec : sDecided (spstep cfg s (.wstep k)) k tid
            (staskOut cfg tid) true := Or.inl hstep
        exact sDecided_allDoneW _ k tid _ _ hall
          (sprun_sDecided cfg rest _ k tid _ _ hdec)
      · have hne : ∀ k2, e = SPEv.wstep k2 → k2 ≠ k := by
          intro k2 hk2 hkk
          exact he (by rw [hk2, hkk])
        have h1 := spstep_get?_preserved cfg s e k tid _ hk hne
        exact ih (spstep cfg s e) h1 hall

/-! ## Claim theorems -/

/-- C1: for every future (`Proc`), the wrapped task function is invoked
at most once — exactly once when the context was live at the check and
never when it was already cancelled — no matter how many times the
blocking accessors `Go()`/`Result()` are called (`sync.Once` serialises
concurrent calls, so an execution is a call sequence), and every call
returns the identical outcome: the value/error pair recorded at first
resolution and cached in `result`. -/
theorem gogo_C1_proc_exactly_once (T : Type) (cfg : ProcCfg T) (n : Nat) :
    (procCalls cfg n).2 = List.replicate n (procResolved cfg) ∧
    (procCalls cfg n).1.invocations ≤ 1 ∧
    ((procCalls cfg n).1.result =
      if n = 0 then none else some (procResolved cfg)) := by
  refine ⟨procCalls_outputs cfg n, ?_, ?_⟩
  · rw [procCalls_invocations]
    by_cases h : n = 0 ∨ cfg.ctxCancelledAtCheck <;> simp [h]
  · rw [procCalls_state]
    by_cases h : n = 0 <;> simp [h, procInit]

/-- C2: on a fixed pool, `Collect()` partitions the outcomes of a
completed run into a success list and an error list, both in original
submission-index order, whatever the completion (publication) order
was; in particular on the spec's example (size 5, error exactly at
index 3, completion order 4,2,0,3,1) the successes are the results of
tasks 0,1,2,4 in that order and the error list has length 1. -/
theorem gogo_C2_collect_index_order (T : Type) (cfg : PoolCfg T)
    (evs : List PEv) (hall : allDone (prun cfg evs) = true) :
    collectFromFeed cfg.zero cfg.size (prun cfg evs).feed =
      (successList cfg (prun cfg evs), errorList cfg (prun cfg evs)) ∧
    (collectFromFeed cfgEx5.zero cfgEx5.size (prun cfgEx5 evs5).feed =
        ([100, 101, 102, 104], [GoError.userErr 3]) ∧
      (prun cfgEx5 evs5).feed.map Prod.fst = [4, 2, 0, 3, 1]) := by
  constructor
  · have hinv := prun_inv cfg evs
    have hord := collect_ordered cfg (prun cfg evs) hinv hall
    show (let base : List (Outcome T) :=
            List.replicate cfg.size ⟨cfg.zero, none⟩
          let ordered := (prun cfg evs).feed.foldl
            (fun acc ir => acc.set ir.1 ir.2) base
          (ordered.filterMap
            (fun o => if o.err.isSome then none else some o.val),
           ordered.filterMap (fun o => o.err))) = _
    simp only [hord]
    unfold successList errorList
    rw [List.filterMap_map, List.filterMap_map]
    rfl
  · constructor
    · decide
    · decide

/-- C3: in every completed run of a fixed pool of size N each task
contributes exactly one outcome: `Collect()`'s success and error lists
have lengths summing to N, the feed indices are a permutation of
0…N-1 (no duplicates, no drops), and the channel `Go()` returns
delivers exactly N outcomes before it closes. -/
theorem gogo_C3_one_outcome_per_task (T : Type) (cfg : PoolCfg T)
    (evs : List PEv) (hall : allDone (prun cfg evs) = true) :
    ((collectFromFeed cfg.zero cfg.size (prun cfg evs).feed).1.length +
      (collectFromFeed cfg.zero cfg.size (prun cfg evs).feed).2.length =
        cfg.size) ∧
    ((prun cfg evs).feed.map Prod.fst).Perm (List.range cfg.size) ∧
    (goOut (prun cfg evs)).length = cfg.size := by
  have hinv := prun_inv cfg evs
  have hperm := feed_fst_perm cfg (prun cfg evs) hinv hall
  refine ⟨?_, hperm, ?_⟩
  · have hord := collect_ordered cfg (prun cfg evs) hinv hall
    show (((prun cfg evs).feed.foldl (fun acc ir => acc.set ir.1 ir.2)
            (List.replicate cfg.size ⟨cfg.zero, none⟩)).filterMap
            (fun o => if o.err.isSome then none else some o.val)).length +
        (((prun cfg evs).feed.foldl (fun acc ir => acc.set ir.1 ir.2)
            (List.replicate cfg.size ⟨cfg.zero, none⟩)).filterMap
            (fun o => o.err)).length = cfg.size
    rw [hord, filterMap_split_length]
    simp
  · show ((prun cfg evs).feed.map (·.2)).length = cfg.size
    rw [List.length_map]
    have := hperm.length_eq
    rw [List.length_map] at this
    rw [this, List.length_range]

/-- C4: the consumption modes of a fixed pool are mutually exclusive
and one-shot: after any non-aborted call sequence containing a `Go()`
(or a `Wait()`, which calls `Go()`), a `Collect()` aborts; after a
`Collect()`, both a further `Go()` and a further `Collect()` abort —
loudly, immediately and deterministically, modelled by the absorbing
`none`; repeated `Go()` calls alone never abort. -/
theorem gogo_C4_consume_mode_mutex (pre : List PoolCall) (m : Nat)
    (hok : runCalls 0 pre = some m) :
    (PoolCall.goCall ∈ pre →
      runCalls 0 (pre ++ [.collectCall]) = none) ∧
    (PoolCall.collectCall ∈ pre →
      runCalls 0 (pre ++ [.goCall]) = none ∧
      runCalls 0 (pre ++ [.collectCall]) = none) ∧
    (∀ n, runCalls 0 (List.replicate n .goCall) =
      some (if n = 0 then 0 else 1)) ∧
    runCalls 0 [.goCall, .collectCall] = none ∧
    runCalls 0 [.collectCall, .goCall] = none ∧
    runCalls 0 [.collectCall, .collectCall] = none := by
  refine ⟨?_, ?_, runCalls_go_replicate, by decide, by decide, by decide⟩
  · intro hmem
    have hm := runCalls_mode_of_go pre 0 m hmem hok
    rw [runCalls_append, hok, hm]
    decide
  · intro hmem
    have hm := runCalls_mode_of_collect pre 0 m hmem hok
    constructor
    · rw [runCalls_append, hok, hm]
      decide
    · rw [runCalls_append, hok, hm]
      decide

theorem gogo_C4_witness :
    runCalls 0 [PoolCall.goCall] = some 1 ∧
    (PoolCall.goCall ∈ [PoolCall.goCall] →
      runCalls 0 ([PoolCall.goCall] ++ [.collectCall]) = none) :=
  ⟨by decide, (gogo_C4_consume_mode_mutex [.goCall] 1 (by decide)).1⟩

theorem gogo_C2_witness :
    allDone (prun cfgEx5 evs5) = true ∧
    (collectFromFeed cfgEx5.zero cfgEx5.size (prun cfgEx5 evs5).feed =
      (successList cfgEx5 (prun cfgEx5 evs5),
       errorList cfgEx5 (prun cfgEx5 evs5))) :=
  ⟨by decide, (gogo_C2_collect_index_order Nat cfgEx5 evs5 (by decide)).1⟩

theorem gogo_C3_witness :
    allDone (prun cfgEx5 evs5) = true ∧
    ((collectFromFeed cfgEx5.zero cfgEx5.size (prun cfgEx5 evs5).feed).1.length +
      (collectFromFeed cfgEx5.zero cfgEx5.size (prun cfgEx5 evs5).feed).2.length =
        cfgEx5.size) :=
  ⟨by decide, (gogo_C3_one_outcome_per_task Nat cfgEx5 evs5 (by decide)).1⟩

/-- C5 counterexample: with `failFast` set, task 0 returns a non-nil
error while tasks 1 and 2 are both still schedulable (unchecked) — yet
in the completed execution in which their pre-execution checks run
before task 0's fail-fast cancellation step, no task's outcome is a
cancellation error.  The claim's conclusion fails when "schedulable" is
measured at the moment the first error is produced, because the
cancellation happens only at the erroring worker's next step. -/
theorem gogo_C5_cex :
    cfgC5.failFast = true ∧
    (prun cfgC5 pre5).phases.get? 0 =
      some (.toCancel ⟨0, some (.userErr 7)⟩ true) ∧
    (prun cfgC5 pre5).cancelled = false ∧
    (prun cfgC5 pre5).phases.get? 1 = some .idle ∧
    (prun cfgC5 pre5).phases.get? 2 = some .idle ∧
    allDone (prun cfgC5 evsC5) = true ∧
    (prun cfgC5 evsC5).feed =
      [(0, ⟨0, some (.userErr 7)⟩), (1, ⟨1, none⟩), (2, ⟨2, none⟩)] := by
  decide

/-- C5 (amended): with `failFast`, a worker whose task errs cancels the
shared token before publishing its outcome — an errored outcome can
only be present in the feed (fixed pool) or the results channel
(streaming pool) of a reachable state in which the pool is already
cancelled — and every worker still unchecked at any state in which the
token is cancelled finishes with the cancellation outcome without its
task ever being invoked; hence when more than one task is still
schedulable at the time the cancellation is performed, at least one
other task's outcome is a cancellation error. -/
theorem gogo_C5_failfast_cancel (T : Type) (cfg : PoolCfg T)
    (evs evs2 : List PEv) (j : Nat) :
    (cfg.failFast = true → ∀ i o, (i, o) ∈ (prun cfg evs).feed →
      o.err.isSome = true → (prun cfg evs).cancelled = true) ∧
    ((prun cfg evs).cancelled = true →
      (prun cfg evs).phases.get? j = some .idle →
      allDone (evs2.foldl (pstep cfg) (prun cfg evs)) = true →
      (evs2.foldl (pstep cfg) (prun cfg evs)).phases.get? j =
        some (.done (cancelOut cfg) false)) ∧
    (∀ (scfg : SPCfg T) (sevs : List SPEv), scfg.failFast = true →
      ∀ o, o ∈ (spRun scfg sevs).results → o.err.isSome = true →
      (spRun scfg sevs).cancelled = true) ∧
    (∀ (scfg : SPCfg T) (sevs sevs2 : List SPEv) (k tid : Nat),
      (spRun scfg sevs).cancelled = true →
      (spRun scfg sevs).workers.get? k = some (tid, .idle) →
      allDoneW (sevs2.foldl (spstep scfg) (spRun scfg sevs)) = true →
      (sevs2.foldl (spstep scfg) (spRun scfg sevs)).workers.get? k =
        some (tid, .done (scancelOut scfg) false)) := by
  refine ⟨?_, ?_, ?_, ?_⟩
  · intro hff i o hmem herr
    exact (prun_inv cfg evs).2.2.2.2.1 hff i o hmem herr
  · intro hc hidle hall
    exact run_idle_cancelled_final cfg evs2 (prun cfg evs) j hc hidle hall
  · intro scfg sevs hff o hmem herr
    exact (spRun_inv scfg sevs).2.2.2.2.2.2.2.2.2.1 hff o hmem herr
  · intro scfg sevs sevs2 k tid hc hk hall
    exact sp_idle_cancelled_final scfg sevs2 (spRun scfg sevs) k tid hc hk hall

theorem gogo_C5_witness :
    (prun cfgC5 evsA).cancelled = true ∧
    (prun cfgC5 evsA).phases.get? 1 = some WPhase.idle ∧
    allDone (evsB.foldl (pstep cfgC5) (prun cfgC5 evsA)) = true ∧
    (evsB.foldl (pstep cfgC5) (prun cfgC5 evsA)).phases.get? 1 =
      some (.done (cancelOut cfgC5) false) :=
  ⟨by decide, by decide, by decide,
   (gogo_C5_failfast_cancel Nat cfgC5 evsA evsB 1).2.1
     (by decide) (by decide) (by decide)⟩

/-- C6: once a streaming pool is closed (`done` closed), no event of
any execution dispatches a new task — the list of dispatched task ids
is frozen; a second `Close()` is a complete no-op (idempotent); the
results channel is closed only after every dispatched worker has
finished; each finished worker has reported exactly one result, so in
a completed execution there is exactly one result per accepted task —
an accepted task's outcome is never lost.  (A task is "accepted for
dispatch" when its rendezvous on the unbuffered `tasks` channel
completes, which is the same event as its dispatch.) -/
theorem gogo_C6_close_drain (T : Type) (cfg : SPCfg T)
    (evs : List SPEv) (e : SPEv) :
    ((spRun cfg evs).doneClosed = true →
      (spstep cfg (spRun cfg evs) e).workers.map Prod.fst =
        (spRun cfg evs).workers.map Prod.fst) ∧
    ((spRun cfg evs).doneClosed = true →
      spstep cfg (spRun cfg evs) .closeCall = spRun cfg evs) ∧
    ((spRun cfg evs).resultsClosed = true →
      allDoneW (spRun cfg evs) = true) ∧
    ((spRun cfg evs).results.length =
      (spRun cfg evs).workers.countP (fun p => isDonePh p.2)) ∧
    (allDoneW (spRun cfg evs) = true →
      (spRun cfg evs).results.length = (spRun cfg evs).workers.length) := by
  have hinv := spRun_inv cfg evs
  refine ⟨?_, ?_, hinv.2.2.2.1, hinv.2.2.2.2.2.2.1, ?_⟩
  · intro hdc
    exact spstep_workers_frozen cfg (spRun cfg evs) e hdc hinv
  · intro hdc
    exact spstep_close_id cfg (spRun cfg evs) hdc hinv
  · intro hall
    rw [hinv.2.2.2.2.2.2.1]
    exact countP_eq_length_of_allDone _ hall

theorem gogo_C6_witness :
    (spRun scfgW evsW).doneClosed = true ∧
    (spstep scfgW (spRun scfgW evsW) (.submitPark 9)).workers.map Prod.fst =
      (spRun scfgW evsW).workers.map Prod.fst :=
  ⟨by decide,
   (gogo_C6_close_drain Nat scfgW evsW (.submitPark 9)).1 (by decide)⟩

/-- C7: `Submit` on a streaming pool never panics and never blocks
forever once the pool is closed: `ErrPoolClosed` (`(tid, false)` in
`subRes`) is returned only when the pool is closed; a nil return
(`(tid, true)`) means the task was accepted for dispatch and appears
among the workers; once the pool is closed no submitter remains parked
and a `Submit` arriving afterwards resolves immediately through the
ready `<-done` case; and no result is ever sent on the closed results
channel (results are closed only after all workers have finished), so
no channel operation of `Submit` or of a worker can panic. -/
theorem gogo_C7_submit_safe (T : Type) (cfg : SPCfg T)
    (evs : List SPEv) (tid : Nat) :
    (∀ t, (t, false) ∈ (spRun cfg evs).subRes →
      (spRun cfg evs).doneClosed = true) ∧
    (∀ t, (t, true) ∈ (spRun cfg evs).subRes →
      t ∈ (spRun cfg evs).workers.map Prod.fst) ∧
    ((spRun cfg evs).doneClosed = true → (spRun cfg evs).parked = []) ∧
    ((spRun cfg evs).doneClosed = true →
      (spstep cfg (spRun cfg evs) (.submitSeeClosed tid)).subRes =
        (spRun cfg evs).subRes ++ [(tid, false)]) ∧
    ((spRun cfg evs).resultsClosed = true →
      allDoneW (spRun cfg evs) = true) := by
  have hinv := spRun_inv cfg evs
  refine ⟨hinv.2.2.2.2.1, hinv.2.2.2.2.2.1, hinv.2.1, ?_, hinv.2.2.2.1⟩
  intro hdc
  simp [spstep, hdc]

theorem gogo_C7_witness :
    (spRun scfgW evsW).doneClosed = true ∧
    (spstep scfgW (spRun scfgW evsW) (.submitSeeClosed 9)).subRes =
      (spRun scfgW evsW).subRes ++ [(9, false)] :=
  ⟨by decide,
   (gogo_C7_submit_safe Nat scfgW evsW 9).2.2.2.1 (by decide)⟩

/-- C8: for a future and for a fixed-pool or streaming-pool worker, if
the shared token is already cancelled at the pre-execution check the
outcome is the token's cancellation error and the task body is never
invoked (`invoked = false`, and for the future the invocation count
stays 0); otherwise the task runs and its value/error pair becomes the
outcome. -/
theorem gogo_C8_precheck_gate (T : Type) (cfg : PoolCfg T) (s : PState T)
    (i : Nat) (hidle : s.phases.get? i = some .idle) :
    (s.cancelled = true →
      (pstep cfg s (.work i)).phases.get? i =
        some (.toCancel (cancelOut cfg) false)) ∧
    (s.cancelled = true → ∀ evs : List PEv,
      allDone (evs.foldl (pstep cfg) s) = true →
      (evs.foldl (pstep cfg) s).phases.get? i =
        some (.done (cancelOut cfg) false)) ∧
    (s.cancelled = false →
      (pstep cfg s (.work i)).phases.get? i = some .running ∧
      ∀ evs : List PEv,
        allDone (evs.foldl (pstep cfg) (pstep cfg s (.work i))) = true →
        (evs.foldl (pstep cfg) (pstep cfg s (.work i))).phases.get? i =
          some (.done (taskOut cfg i) true)) ∧
    (∀ (pc : ProcCfg T) (n : Nat), 1 ≤ n →
      (pc.ctxCancelledAtCheck = true →
        (procCalls pc n).1.result = some ⟨pc.zero, some .canceled⟩ ∧
        (procCalls pc n).1.invocations = 0) ∧
      (pc.ctxCancelledAtCheck = false →
        (procCalls pc n).1.result = some ⟨pc.taskVal, pc.taskErr⟩ ∧
        (procCalls pc n).1.invocations = 1)) ∧
    (∀ (scfg : SPCfg T) (ss : SPState T) (k tid : Nat),
      ss.workers.get? k = some (tid, .idle) →
      (ss.cancelled = true →
        (spstep scfg ss (.wstep k)).workers.get? k =
          some (tid, .toCancel (scancelOut scfg) false) ∧
        ∀ sevs : List SPEv, allDoneW (sevs.foldl (spstep scfg) ss) = true →
          (sevs.foldl (spstep scfg) ss).workers.get? k =
            some (tid, .done (scancelOut scfg) false)) ∧
      (ss.cancelled = false →
        (spstep scfg ss (.wstep k)).workers.get? k = some (tid, .running) ∧
        ∀ sevs : List SPEv,
          allDoneW (sevs.foldl (spstep scfg) (spstep scfg ss (.wstep k))) =
            true →
          (sevs.foldl (spstep scfg) (spstep scfg ss (.wstep k))).workers.get? k
            = some (tid, .done (staskOut scfg tid) true))) := by
  refine ⟨?_, ?_, ?_, ?_, ?_⟩
  · intro hc
    exact workStep_idle_cancelled cfg s i hc hidle
  · intro hc evs hall
    exact run_idle_cancelled_final cfg evs s i hc hidle hall
  · intro hc
    refine ⟨workStep_idle_live cfg s i hc hidle, ?_⟩
    intro evs hall
    exact run_running_final cfg evs _ i
      (workStep_idle_live cfg s i hc hidle) hall
  · intro pc n hn
    have hst := procCalls_state pc n
    have hn0 : ¬(n = 0) := by omega
    constructor
    · intro hcc
      rw [hst]
      simp [hn0, hcc, procResolved]
    · intro hcc
      rw [hst]
      simp [hn0, hcc, procResolved]
  · intro scfg ss k tid hk
    constructor
    · intro hc
      refine ⟨sworkStep_idle_cancelled scfg ss k tid hc hk, ?_⟩
      intro sevs hall
      exact sp_idle_cancelled_final scfg sevs ss k tid hc hk hall
    · intro hc
      refine ⟨sworkStep_idle_live scfg ss k tid hc hk, ?_⟩
      intro sevs hall
      exact sp_running_final scfg sevs _ k tid
        (sworkStep_idle_live scfg ss k tid hc hk) hall

theorem gogo_C8_witness :
    (pInit cfgC5).phases.get? 1 = some WPhase.idle ∧
    ((pInit cfgC5).cancelled = false →
      (pstep cfgC5 (pInit cfgC5) (.work 1)).phases.get? 1 =
        some WPhase.running ∧
      ∀ evs : List PEv,
        allDone (evs.foldl (pstep cfgC5)
          (pstep cfgC5 (pInit cfgC5) (.work 1))) = true →
        (evs.foldl (pstep cfgC5)
          (pstep cfgC5 (pInit cfgC5) (.work 1))).phases.get? 1 =
          some (.done (taskOut cfgC5 1) true)) :=
  ⟨by decide,
   (gogo_C8_precheck_gate Nat cfgC5 (pInit cfgC5) 1 (by decide)).2.2.1⟩

/-- C9 counterexample: a worker whose task returns the value 7 together
with a non-nil error publishes the outcome `(7, userErr 1)` — an
outcome whose error is present but whose carried value is not the
type's zero value (0), refuting "failure … the carried value is the
value type's zero/default value". -/
theorem gogo_C9_cex :
    (prun cfgC9 evsC9).feed = [(0, ⟨7, some (.userErr 1)⟩)] ∧
    (outcomeAt cfgC9 (prun cfgC9 evsC9) 0).err.isSome = true ∧
    ¬((outcomeAt cfgC9 (prun cfgC9 evsC9) 0).val = cfgC9.zero) := by
  decide

/-- C9 (amended): every outcome produced by a future or published by a
pool worker (fixed or streaming) has exactly one kind — success (error
absent) or failure (error present) — and is either exactly the
value/error pair the task returned (so a failing task's outcome carries
whatever value the task returned alongside its error), or the
pool-generated cancellation outcome, whose carried value is the zero
value; the `invoked` flag ties the two cases to whether the task body
ran. -/
theorem gogo_C9_outcome_kinds (T : Type) (cfg : PoolCfg T)
    (evs : List PEv) :
    (∀ i o, (i, o) ∈ (prun cfg evs).feed →
      o = taskOut cfg i ∨ o = cancelOut cfg) ∧
    (∀ i o inv, (prun cfg evs).phases.get? i = some (.done o inv) →
      (inv = true ∧ o = taskOut cfg i) ∨
      (inv = false ∧ o = cancelOut cfg)) ∧
    (∀ (pc : ProcCfg T) (n : Nat),
      (procCalls pc n).1.result = none ∨
      (procCalls pc n).1.result = some (procResolved pc)) ∧
    (∀ (scfg : SPCfg T) (sevs : List SPEv) (o : Outcome T),
      o ∈ (spRun scfg sevs).results →
      (∃ tid, o = staskOut scfg tid) ∨ o = scancelOut scfg) := by
  have hinv := prun_inv cfg evs
  refine ⟨?_, ?_, ?_, ?_⟩
  · intro i o hmem
    obtain ⟨inv, hdone⟩ := hinv.2.1 i o hmem
    have hok := hinv.2.2.2.1 i _ hdone
    rcases hok with ⟨_, ho⟩ | ⟨_, ho⟩
    · exact Or.inl ho
    · exact Or.inr ho
  · intro i o inv hdone
    exact hinv.2.2.2.1 i _ hdone
  · intro pc n
    rw [procCalls_state]
    by_cases hn : n = 0 <;> simp [hn, procInit]
  · intro scfg sevs o hmem
    exact (spRun_inv scfg sevs).2.2.2.2.2.2.2.2.1 o hmem

theorem gogo_C9_witness :
    (0, Outcome.mk 7 (some (GoError.userErr 1))) ∈ (prun cfgC9 evsC9).feed ∧
    (Outcome.mk 7 (some (GoError.userErr 1)) = taskOut cfgC9 0 ∨
     Outcome.mk 7 (some (GoError.userErr 1)) = cancelOut cfgC9) :=
  ⟨by decide,
   (gogo_C9_outcome_kinds Nat cfgC9 evsC9).1 0 ⟨7, some (.userErr 1)⟩
     (by decide)⟩

/-- C10: a fixed pool of size 0 launches no workers and its feed is
closed immediately empty: in every execution the feed stays empty,
`Collect()` returns two empty lists, the channel `Go()` returns is
closed without delivering an outcome, and the run is trivially
complete. -/
theorem gogo_C10_empty_pool (T : Type) (cfg : PoolCfg T)
    (hsz : cfg.size = 0) (evs : List PEv) :
    (prun cfg evs).feed = [] ∧
    collectFromFeed cfg.zero cfg.size (prun cfg evs).feed = ([], []) ∧
    goOut (prun cfg evs) = [] ∧
    allDone (prun cfg evs) = true := by
  have hP : (prun cfg evs).phases = [] ∧ (prun cfg evs).feed = [] := by
    apply foldl_pres cfg
      (P := fun s => s.phases = [] ∧ s.feed = [])
    · intro s e hs
      cases e with
      | cancelEv => exact hs
      | work i =>
          have : s.phases.get? i = none := by
            rw [hs.1]
            rfl
          show (workStep cfg s i).phases = [] ∧ (workStep cfg s i).feed = []
          have hid : workStep cfg s i = s := by
            unfold workStep
            rw [this]
          rw [hid]
          exact hs
    · constructor
      · show List.replicate cfg.size WPhase.idle = _
        rw [hsz]
        rfl
      · rfl
  refine ⟨hP.2, ?_, ?_, ?_⟩
  · rw [hP.2, hsz]
    rfl
  · show (prun cfg evs).feed.map (·.2) = []
    rw [hP.2]
    rfl
  · show (prun cfg evs).phases.all isDonePh = true
    rw [hP.1]
    rfl

theorem gogo_C10_witness :
    cfg0.size = 0 ∧
    ((prun cfg0 [PEv.work 0, PEv.cancelEv]).feed = [] ∧
     collectFromFeed cfg0.zero cfg0.size
       (prun cfg0 [PEv.work 0, PEv.cancelEv]).feed = ([], []) ∧
     goOut (prun cfg0 [PEv.work 0, PEv.cancelEv]) = [] ∧
     allDone (prun cfg0 [PEv.work 0, PEv.cancelEv]) = true) :=
  ⟨by decide, gogo_C10_empty_pool Nat cfg0 (by decide) [PEv.work 0, PEv.cancelEv]⟩

end Gogo
